import Mathlib

/-!
# KVStorage: a key-value store with TTL expiration

A shallow embedding of `src/storage/lib.hpp` (the class template `KVStorage<Clock>`)
and the properties of its operations.

* `std::string` is a sequence of bytes; `operator<` on it is the byte-wise lexicographic
  order, which is the order of `List Nat`.
* `time_point` is the tick count of `decltype(Clock::now())`.  What the code uses of its
  `Clock` template argument is `time_point::max()` and the number of ticks of one
  `std::chrono::seconds`; both are fields of `Clock`.  Every call of `Clock::now()` is an
  explicit argument `now` of the operation that makes it.
* `std::unordered_map<std::string, Entry>` is an association list with pairwise distinct
  keys (`AList`): `find` is `lookup`, `operator[]=` is `insert`, `erase` is `erase`.
* `std::priority_queue<ExpItem, std::vector<ExpItem>, std::greater<ExpItem>>` is the
  multiset of its elements, kept as a list: `top` is a least element for `operator>`,
  `pop` removes one copy of it.
-/

namespace KV

/-- A `std::string`: its bytes, in order. -/
abbrev string := List Nat

/-- The tick count of a `time_point` of the clock. -/
abbrev time_point := Int

/-- The part of the `Clock` template argument the storage depends on. -/
structure Clock where
  /-- Value of `time_point::max()`, the "never expires" sentinel. -/
  max : time_point
  /-- Ticks of the clock's duration in one `std::chrono::seconds(1)`. -/
  ticks_per_second : Nat

/-- The duration `std::chrono::seconds(ttl)` in ticks of the clock.  The sum
`Clock::now() + std::chrono::seconds(ttl)` is taken in the integers: it is the source's
result whenever that result is representable in the clock's tick type. -/
def Clock.seconds (C : Clock) (ttl : Nat) : Int :=
  (ttl : Int) * (C.ticks_per_second : Int)

/-- The instantiation of the tests: a 64-bit nanosecond `std::chrono::steady_clock`. -/
def steady_clock : Clock :=
  { max := 9223372036854775807, ticks_per_second := 1000000000 }

/-- The record `struct Entry` of the primary map. -/
structure Entry where
  value : string
  expires_at : time_point
deriving DecidableEq, Repr

/-- The candidate `struct ExpItem` of the expiry index. -/
structure ExpItem where
  key : string
  expires_at : time_point
deriving DecidableEq, Repr

/-- The comparison `ExpItem::operator>`. -/
def ExpItem.gt (a o : ExpItem) : Bool :=
  if a.expires_at ≠ o.expires_at then decide (a.expires_at > o.expires_at)
  else decide (a.key > o.key)

/-- The order that `std::greater<ExpItem>` puts on the expiry index: `expires_at`
ascending, then `key` ascending; `a.gt b` is its strict converse (`ExpItem.gt_iff`). -/
def ExpItem.le (a b : ExpItem) : Prop :=
  a.expires_at < b.expires_at ∨ (a.expires_at = b.expires_at ∧ a.key ≤ b.key)

/-- The primary map `std::unordered_map<std::string, Entry>`. -/
abbrev Map := AList (fun _ : string => Entry)

/-- The expiry index `std::priority_queue<ExpItem, ..., std::greater<ExpItem>>`:
the elements it holds. -/
abbrev Heap := List ExpItem

/-- The call `priority_queue::push`. -/
def Heap.push (h : Heap) (x : ExpItem) : Heap := x :: h

/-- The call `priority_queue::top` under `std::greater<ExpItem>`: an element that is
`operator>` no other element (`none` on the empty queue, where the source never calls it). -/
def Heap.top : Heap → Option ExpItem
  | [] => none
  | x :: xs => some (xs.foldl (fun best y => if best.gt y then y else best) x)

/-- The call `priority_queue::pop`: removes one copy of the top element. -/
def Heap.pop (h : Heap) : Heap :=
  match Heap.top h with
  | none => h
  | some t => h.erase t

/-- The data members `map_` and `expiry_heap_` of `KVStorage` (the member `clock_` is
never read: the code calls the static `Clock::now()`). -/
structure KVStorage where
  map_ : Map
  expiry_heap_ : Heap

namespace KVStorage

/-- The store before the constructor's loop: both containers empty. -/
def empty : KVStorage := { map_ := ∅, expiry_heap_ := [] }

/-- The method `KVStorage::set`, with `now` the value of `Clock::now()`.  The expiration
`now + seconds(ttl)` is the integer sum, the value the source computes whenever the sum
is representable as a `time_point` (it is at most `time_point::max()`). -/
def set (C : Clock) (now : time_point) (s : KVStorage) (key value : string) (ttl : Nat) :
    KVStorage :=
  let expires : time_point := if ttl = 0 then C.max else now + C.seconds ttl
  { map_ := s.map_.insert key { value := value, expires_at := expires }
    expiry_heap_ := Heap.push s.expiry_heap_ { key := key, expires_at := expires } }

/-- The method `KVStorage::remove`: the returned flag and the store after the call. -/
def remove (s : KVStorage) (key : string) : Bool × KVStorage :=
  match s.map_.lookup key with
  | none => (false, s)
  | some _ => (true, { s with map_ := s.map_.erase key })

/-- The method `KVStorage::get`, with `now` the value of `Clock::now()`. -/
def get (C : Clock) (now : time_point) (s : KVStorage) (key : string) : Option string :=
  match s.map_.lookup key with
  | none => none
  | some e => if e.expires_at ≠ C.max ∧ now ≥ e.expires_at then none else some e.value

/-- The first loop of `getManySorted`: the keys of the records that pass the filter
`expires_at == time_point::max() || now < expires_at`, in iteration order. -/
def liveKeys (C : Clock) (now : time_point) (m : Map) : List string :=
  (m.entries.filter (fun kv => decide (kv.2.expires_at = C.max ∨ now < kv.2.expires_at))).map
    (fun kv => kv.1)

/-- The call `std::lower_bound(keys.begin(), keys.end(), key)` on the sorted `keys`:
the suffix that starts at the first element not less than `key`. -/
def lower_bound (keys : List string) (key : string) : List string :=
  keys.dropWhile (fun k => decide (k < key))

/-- The `while` loop of `getManySorted`: `it` is the rest of the keys, `res` the pairs
collected so far. -/
def collect (m : Map) (count : Nat) : List string → List (string × string) →
    List (string × string)
  | [], res => res
  | k :: it, res =>
    if res.length < count then
      match m.lookup k with
      | some e => collect m count it (res ++ [(k, e.value)])
      | none => collect m count it res
    else res

/-- The method `KVStorage::getManySorted`, with `now` the value of `Clock::now()`. -/
def getManySorted (C : Clock) (now : time_point) (s : KVStorage) (key : string)
    (count : Nat) : List (string × string) :=
  let keys := (liveKeys C now s.map_).insertionSort (fun a b => a ≤ b)
  collect s.map_ count (lower_bound keys key) []

/-- The `while` loop of `removeOneExpiredEntry`, at most `fuel` iterations of it: the
returned entry, and the map and the index when the loop is left. -/
def removeLoop (now : time_point) : Nat → Map → Heap → Option (string × string) × Map × Heap
  | 0, m, h => (none, m, h)
  | fuel + 1, m, h =>
    match Heap.top h with
    | none => (none, m, h)
    | some top =>
      if top.expires_at > now then (none, m, h)
      else
        match m.lookup top.key with
        | none => removeLoop now fuel m (Heap.pop h)
        | some e =>
          if e.expires_at ≠ top.expires_at then removeLoop now fuel m (Heap.pop h)
          else (some (top.key, e.value), m.erase top.key, Heap.pop h)

/-- The method `KVStorage::removeOneExpiredEntry`, with `now` the value of `Clock::now()`:
the returned entry and the store after the call.  Each iteration that continues pops one
candidate, so as many iterations as the index has candidates run the loop to its end
(`removeLoop_fuel`). -/
def removeOneExpiredEntry (now : time_point) (s : KVStorage) :
    Option (string × string) × KVStorage :=
  let r := removeLoop now s.expiry_heap_.length s.map_ s.expiry_heap_
  (r.1, { map_ := r.2.1, expiry_heap_ := r.2.2 })

/-- The state after `n` successive calls of `removeOneExpiredEntry`, all at clock
value `now`. -/
def evictMany (now : time_point) : Nat → KVStorage → KVStorage
  | 0, s => s
  | n + 1, s => evictMany now n (s.removeOneExpiredEntry now).2

/-- One call of a public method, with the value `Clock::now()` has during the call
(`remove` does not read the clock). -/
inductive Op where
  | set (now : time_point) (key value : string) (ttl : Nat)
  | remove (key : string)
  | get (now : time_point) (key : string)
  | getManySorted (now : time_point) (key : string) (count : Nat)
  | removeOneExpiredEntry (now : time_point)
deriving DecidableEq, Repr

/-- The store after one call; `get` and `getManySorted` are `const` methods. -/
def step (C : Clock) (s : KVStorage) : Op → KVStorage
  | Op.set now key value ttl => s.set C now key value ttl
  | Op.remove key => (s.remove key).2
  | Op.get _ _ => s
  | Op.getManySorted _ _ _ => s
  | Op.removeOneExpiredEntry now => (s.removeOneExpiredEntry now).2

/-- The store after a sequence of calls, first call first. -/
def run (C : Clock) (s : KVStorage) (ops : List Op) : KVStorage :=
  ops.foldl (step C) s

/-- The constructor `KVStorage::KVStorage`: `set` on each triple of `entries` in order;
each triple comes with the value `Clock::now()` has in its `set` call. -/
def construct (C : Clock) (entries : List (time_point × string × string × Nat)) :
    KVStorage :=
  entries.foldl (fun s t => s.set C t.1 t.2.1 t.2.2.1 t.2.2.2) empty

/-- The states the store can be in: constructed from some entries, then any sequence of
calls, at any clock values (non-decreasing ones among them). -/
def Reachable (C : Clock) (s : KVStorage) : Prop :=
  ∃ entries ops, s = run C (construct C entries) ops

/-- Every record of the map has a candidate with its key and its `expires_at` in the
expiry index. -/
def IndexCovers (s : KVStorage) : Prop :=
  ∀ k e, s.map_.lookup k = some e →
    ({ key := k, expires_at := e.expires_at } : ExpItem) ∈ s.expiry_heap_

/-- Whether a call writes or deletes the key `k`: a `set` or a `remove` of `k`. -/
def Op.touches (k : string) : Op → Bool
  | Op.set _ key _ _ => decide (key = k)
  | Op.remove key => decide (key = k)
  | _ => false

/-- Whether a call, if it is a `removeOneExpiredEntry`, is made at a clock value below
`bound`; true of every other call. -/
def Op.evictsBelow (bound : time_point) : Op → Bool
  | Op.removeOneExpiredEntry now => decide (now < bound)
  | _ => true

/-- Whether a call is a `removeOneExpiredEntry`. -/
def Op.isEvict : Op → Bool
  | Op.removeOneExpiredEntry _ => true
  | _ => false

/-- A store of the tests' kind: `set("k", "v", 1)` at clock value 0 on the empty store. -/
def storeK : KVStorage :=
  empty.set steady_clock 0 [107] [118] 1

/-- A reachable store with stale candidates: constructed from `("b", "2", 1)` and
`("a", "1", 1)` at clock value 0, then `set("b", "3", 2)` at 0 and `remove("c")`. -/
def storeAB : KVStorage :=
  run steady_clock (construct steady_clock [(0, [98], [50], 1), (0, [97], [49], 1)])
    [Op.set 0 [98] [51] 2, Op.remove [99]]

/-- A store whose one record never expires and whose index also holds a stale candidate:
`set("k", "1", 1)` then `set("k", "2", 0)`, both at clock value 0. -/
def storeStale : KVStorage :=
  (empty.set steady_clock 0 [107] [49] 1).set steady_clock 0 [107] [50] 0

/-- Calls on keys other than `"k"`, with a `get` of `"k"` and no `removeOneExpiredEntry`. -/
def opsOther : List Op :=
  [Op.set 0 [97] [49] 0, Op.get 5 [107], Op.remove [98], Op.getManySorted 7 [] 3]

/-- Calls on keys other than `"k"` with `removeOneExpiredEntry` calls among them, the last
one tick before `time_point::max()`. -/
def opsEvict : List Op :=
  [Op.set 3 [97] [49] 1, Op.removeOneExpiredEntry 2000000000, Op.remove [97],
    Op.getManySorted 7 [] 3, Op.removeOneExpiredEntry 9223372036854775806]

/-- The `while` loop of `removeOneExpiredEntry` with its iterations counted.  `budget` is
the number of times the loop condition `!expiry_heap_.empty()` may be evaluated; the
result is `none` when the loop needs more evaluations than that, and otherwise what the
loop returns (entry, map, index) with the number of executions of the loop body. -/
def removeLoopCounted (now : time_point) :
    Nat → Map → Heap → Option ((Option (string × string) × Map × Heap) × Nat)
  | 0, _, _ => none
  | budget + 1, m, h =>
    match Heap.top h with
    | none => some ((none, m, h), 0)
    | some top =>
      if top.expires_at > now then some ((none, m, h), 1)
      else
        match m.lookup top.key with
        | none =>
          (removeLoopCounted now budget m (Heap.pop h)).map (fun r => (r.1, r.2 + 1))
        | some e =>
          if e.expires_at ≠ top.expires_at then
            (removeLoopCounted now budget m (Heap.pop h)).map (fun r => (r.1, r.2 + 1))
          else some ((some (top.key, e.value), m.erase top.key, Heap.pop h), 1)

/-- The constructor `KVStorage::KVStorage` when `Clock::now()` has the one value `now`
in all the `set` calls of its loop. -/
def constructAt (C : Clock) (now : time_point) (entries : List (string × string × Nat)) :
    KVStorage :=
  construct C (entries.map (fun e => (now, e)))

/-- The specification's account of construction, from a store `s`: `set` is called on
each triple, in sequence order, at time `now`. -/
def setInOrder (C : Clock) (now : time_point) :
    KVStorage → List (string × string × Nat) → KVStorage
  | s, [] => s
  | s, (k, v, ttl) :: rest => setInOrder C now (s.set C now k v ttl) rest

/-- The `expires_at` that `set` with `ttl` at clock value `now` gives a record. -/
def expiresAt (C : Clock) (now : time_point) (ttl : Nat) : time_point :=
  if ttl = 0 then C.max else now + C.seconds ttl

/-- A batch of triples for the constructor in which the key `"a"` occurs twice. -/
def batchAA : List (string × string × Nat) :=
  [([97], [49], 0), ([98], [50], 5), ([97], [51], 2)]

end KVStorage

/-! ## The order of the expiry index and its least element -/

theorem ExpItem.gt_iff (a b : ExpItem) : a.gt b = true ↔ ¬ a.le b := by
  unfold ExpItem.gt ExpItem.le
  by_cases h : a.expires_at = b.expires_at
  · simp [h]
  · simp only [ne_eq, h, not_false_eq_true, if_true, decide_eq_true_eq, false_and, or_false,
      gt_iff_lt, not_lt]
    exact ⟨fun hlt => le_of_lt hlt, fun hle => lt_of_le_of_ne hle (Ne.symm h)⟩

theorem ExpItem.le_self (a : ExpItem) : a.le a := Or.inr ⟨rfl, le_rfl⟩

theorem ExpItem.le_cases (a b : ExpItem) : a.le b ∨ b.le a := by
  unfold ExpItem.le
  rcases lt_trichotomy a.expires_at b.expires_at with h | h | h
  · exact Or.inl (Or.inl h)
  · rcases le_total a.key b.key with hk | hk
    · exact Or.inl (Or.inr ⟨h, hk⟩)
    · exact Or.inr (Or.inr ⟨h.symm, hk⟩)
  · exact Or.inr (Or.inl h)

theorem ExpItem.le_chain {a b c : ExpItem} (hab : a.le b) (hbc : b.le c) : a.le c := by
  unfold ExpItem.le at *
  rcases hab with h1 | ⟨h1, k1⟩ <;> rcases hbc with h2 | ⟨h2, k2⟩
  · exact Or.inl (lt_trans h1 h2)
  · exact Or.inl (h2 ▸ h1)
  · exact Or.inl (h1 ▸ h2)
  · exact Or.inr ⟨h1.trans h2, k1.trans k2⟩

theorem ExpItem.eq_of_le_le {a b : ExpItem} (hab : a.le b) (hba : b.le a) : a = b := by
  unfold ExpItem.le at *
  cases a; cases b
  simp only at *
  rcases hab with h1 | ⟨h1, k1⟩ <;> rcases hba with h2 | ⟨h2, k2⟩
  · exact absurd (lt_trans h1 h2) (lt_irrefl _)
  · exact absurd (h2 ▸ h1) (lt_irrefl _)
  · exact absurd (h1 ▸ h2) (lt_irrefl _)
  · simp [h1, le_antisymm k1 k2]

theorem Heap.foldl_best (xs : List ExpItem) (x : ExpItem) :
    (xs.foldl (fun best y => if best.gt y then y else best) x ∈ x :: xs) ∧
    ∀ y ∈ x :: xs, (xs.foldl (fun best y => if best.gt y then y else best) x).le y := by
  induction xs generalizing x with
  | nil => simp [ExpItem.le_self]
  | cons z zs ih =>
    simp only [List.foldl_cons]
    by_cases hg : x.gt z = true
    · simp only [hg, if_true]
      obtain ⟨hm, hl⟩ := ih z
      have hzx : z.le x := by
        rcases ExpItem.le_cases z x with h | h
        · exact h
        · exact absurd h ((ExpItem.gt_iff x z).1 hg)
      refine ⟨?_, ?_⟩
      · exact List.mem_cons_of_mem _ hm
      · intro y hy
        rcases List.mem_cons.1 hy with rfl | hy
        · exact ExpItem.le_chain (hl z (List.mem_cons_self _ _)) hzx
        · exact hl y hy
    · rw [if_neg hg]
      obtain ⟨hm, hl⟩ := ih x
      have hxz : x.le z := by
        by_contra h
        exact hg ((ExpItem.gt_iff x z).2 h)
      refine ⟨?_, ?_⟩
      · rcases List.mem_cons.1 hm with h | h
        · rw [h]; exact List.mem_cons_self _ _
        · exact List.mem_cons_of_mem _ (List.mem_cons_of_mem _ h)
      · intro y hy
        rcases List.mem_cons.1 hy with rfl | hy
        · exact hl _ (List.mem_cons_self _ _)
        · rcases List.mem_cons.1 hy with rfl | hy
          · exact ExpItem.le_chain (hl x (List.mem_cons_self _ _)) hxz
          · exact hl y (List.mem_cons_of_mem _ hy)

theorem Heap.top_eq_none {h : Heap} : Heap.top h = none ↔ h = [] := by
  cases h <;> simp [Heap.top]

theorem Heap.top_mem {h : Heap} {t : ExpItem} (ht : Heap.top h = some t) : t ∈ h := by
  cases h with
  | nil => simp [Heap.top] at ht
  | cons x xs =>
    simp only [Heap.top, Option.some.injEq] at ht
    rw [← ht]; exact (Heap.foldl_best xs x).1

theorem Heap.top_le {h : Heap} {t : ExpItem} (ht : Heap.top h = some t) :
    ∀ y ∈ h, t.le y := by
  cases h with
  | nil => simp [Heap.top] at ht
  | cons x xs =>
    simp only [Heap.top, Option.some.injEq] at ht
    rw [← ht]; exact (Heap.foldl_best xs x).2

theorem Heap.top_of_mem {h : Heap} {x : ExpItem} (hx : x ∈ h) : ∃ t, Heap.top h = some t := by
  cases h with
  | nil => cases hx
  | cons y ys => exact ⟨_, rfl⟩

theorem Heap.pop_eq {h : Heap} {t : ExpItem} (ht : Heap.top h = some t) :
    Heap.pop h = h.erase t := by
  simp [Heap.pop, ht]

theorem Heap.pop_length {h : Heap} {t : ExpItem} (ht : Heap.top h = some t) :
    (Heap.pop h).length + 1 = h.length := by
  rw [Heap.pop_eq ht, List.length_erase_of_mem (Heap.top_mem ht)]
  have := List.length_pos_of_mem (Heap.top_mem ht)
  omega

theorem Heap.mem_pop_of_ne {h : Heap} {t x : ExpItem} (ht : Heap.top h = some t)
    (hx : x ∈ h) (hne : x ≠ t) : x ∈ Heap.pop h := by
  rw [Heap.pop_eq ht]; exact (List.mem_erase_of_ne hne).2 hx

theorem Heap.pop_sublist (h : Heap) : (Heap.pop h).Sublist h := by
  unfold Heap.pop
  cases Heap.top h with
  | none => exact List.Sublist.refl _
  | some t => exact List.erase_sublist _ _

namespace KVStorage

/-! ## The operations, one by one -/

/-- The loop of `getManySorted` appends the pairs of the next keys found in the map until
`res` holds `count` pairs. -/
theorem collect_eq (m : Map) (count : Nat) (it : List string) (res : List (string × string)) :
    collect m count it res = res ++
      (it.filterMap (fun k => (m.lookup k).map (fun e => (k, e.value)))).take
        (count - res.length) := by
  induction it generalizing res with
  | nil => simp [collect]
  | cons k it ih =>
    unfold collect
    by_cases hlt : res.length < count
    · rw [if_pos hlt]
      cases hk : m.lookup k with
      | none => simp [ih, hk]
      | some e =>
        simp only [ih, List.length_append, List.length_singleton, List.filterMap_cons, hk,
          Option.map_some', List.append_assoc, List.singleton_append]
        have : count - res.length = (count - (res.length + 1)) + 1 := by omega
        rw [this, List.take_succ_cons]
    · rw [if_neg hlt]
      have : count - res.length = 0 := by omega
      simp [this]

theorem mem_liveKeys {C : Clock} {now : time_point} {m : Map} {k : string} :
    k ∈ liveKeys C now m ↔
      ∃ e, m.lookup k = some e ∧ (e.expires_at = C.max ∨ now < e.expires_at) := by
  unfold liveKeys
  simp only [List.mem_map, List.mem_filter, decide_eq_true_eq]
  constructor
  · rintro ⟨⟨k', e⟩, ⟨hmem, hlive⟩, rfl⟩
    exact ⟨e, AList.mem_lookup_iff.2 hmem, hlive⟩
  · rintro ⟨e, hl, hlive⟩
    exact ⟨⟨k, e⟩, ⟨AList.mem_lookup_iff.1 hl, hlive⟩, rfl⟩

theorem liveKeys_nodup (C : Clock) (now : time_point) (m : Map) :
    (liveKeys C now m).Nodup := by
  unfold liveKeys
  have h : (m.entries.map (fun kv => kv.1)).Nodup := m.nodupKeys
  exact List.Nodup.sublist (List.Sublist.map _ (List.filter_sublist _)) h

theorem lower_bound_eq_filter (keys : List string) (key : string)
    (hs : keys.Sorted (fun a b => a ≤ b)) :
    lower_bound keys key = keys.filter (fun k => decide (key ≤ k)) := by
  unfold lower_bound
  induction keys with
  | nil => rfl
  | cons a t ih =>
    have hs' := List.sorted_cons.1 hs
    by_cases ha : a < key
    · rw [List.dropWhile_cons_of_pos (by simpa using ha), ih hs'.2]
      rw [List.filter_cons_of_neg (by simpa using ha)]
    · rw [List.dropWhile_cons_of_neg (by simpa using ha)]
      symm
      rw [List.filter_eq_self]
      intro x hx
      have hka : key ≤ a := not_lt.1 ha
      rcases List.mem_cons.1 hx with rfl | hx
      · simpa using hka
      · simpa using le_trans hka (hs'.1 x hx)

theorem set_map (C : Clock) (now : time_point) (s : KVStorage) (k v : string) (ttl : Nat) :
    (s.set C now k v ttl).map_ = s.map_.insert k
      { value := v, expires_at := if ttl = 0 then C.max else now + C.seconds ttl } := rfl

theorem set_heap (C : Clock) (now : time_point) (s : KVStorage) (k v : string) (ttl : Nat) :
    (s.set C now k v ttl).expiry_heap_ =
      { key := k, expires_at := if ttl = 0 then C.max else now + C.seconds ttl } ::
        s.expiry_heap_ := rfl

theorem set_lookup_self (C : Clock) (now : time_point) (s : KVStorage) (k v : string)
    (ttl : Nat) :
    (s.set C now k v ttl).map_.lookup k =
      some { value := v, expires_at := if ttl = 0 then C.max else now + C.seconds ttl } := by
  rw [set_map, AList.lookup_insert]

theorem set_lookup_other (C : Clock) (now : time_point) (s : KVStorage) (k v : string)
    (ttl : Nat) {k' : string} (h : k' ≠ k) :
    (s.set C now k v ttl).map_.lookup k' = s.map_.lookup k' := by
  rw [set_map, AList.lookup_insert_ne h]

theorem remove_map (s : KVStorage) (k : string) :
    (s.remove k).2.map_ = s.map_.erase k := by
  unfold remove
  cases h : s.map_.lookup k with
  | none =>
    refine AList.ext ?_
    have hk : k ∉ s.map_ := AList.lookup_eq_none.1 h
    have hk' : k ∉ s.map_.entries.keys := hk
    show s.map_.entries = List.kerase k s.map_.entries
    rw [List.kerase_of_not_mem_keys hk']
  | some e => rfl

theorem remove_heap (s : KVStorage) (k : string) :
    (s.remove k).2.expiry_heap_ = s.expiry_heap_ := by
  unfold remove
  cases s.map_.lookup k <;> rfl

theorem remove_flag (s : KVStorage) (k : string) :
    (s.remove k).1 = (s.map_.lookup k).isSome := by
  unfold remove
  cases s.map_.lookup k <;> rfl

theorem get_of_lookup_none {C : Clock} {now : time_point} {s : KVStorage} {k : string}
    (h : s.map_.lookup k = none) : s.get C now k = none := by
  simp [get, h]

theorem get_of_lookup_some {C : Clock} {now : time_point} {s : KVStorage} {k : string}
    {e : Entry} (h : s.map_.lookup k = some e) :
    s.get C now k =
      if e.expires_at = C.max ∨ now < e.expires_at then some e.value else none := by
  simp only [get, h]
  by_cases h1 : e.expires_at = C.max
  · simp [h1]
  · by_cases h2 : now < e.expires_at
    · simp [h1, h2, not_le.2 h2]
    · simp [h1, h2, not_lt.1 h2]

/-- One step of the loop of `removeOneExpiredEntry`, spelled out. -/
theorem removeLoop_succ (now : time_point) (fuel : Nat) (m : Map) (h : Heap) :
    removeLoop now (fuel + 1) m h =
      match Heap.top h with
      | none => (none, m, h)
      | some top =>
        if top.expires_at > now then (none, m, h)
        else
          match m.lookup top.key with
          | none => removeLoop now fuel m (Heap.pop h)
          | some e =>
            if e.expires_at ≠ top.expires_at then removeLoop now fuel m (Heap.pop h)
            else (some (top.key, e.value), m.erase top.key, Heap.pop h) := rfl

/-- What the loop of `removeOneExpiredEntry` does: the index only loses candidates, and
either nothing is returned and the map is as it was, or the returned entry is a record of
the map whose `expires_at` is that of a candidate of the index, not after `now`, and the
map loses exactly that key. -/
theorem removeLoop_cases (now : time_point) (fuel : Nat) (m : Map) (h : Heap) :
    (removeLoop now fuel m h).2.2.Sublist h ∧
    (((removeLoop now fuel m h).1 = none ∧ (removeLoop now fuel m h).2.1 = m) ∨
      ∃ t e, (removeLoop now fuel m h).1 = some (t.key, e.value) ∧
        m.lookup t.key = some e ∧ e.expires_at = t.expires_at ∧ t.expires_at ≤ now ∧
        t ∈ h ∧ (removeLoop now fuel m h).2.1 = m.erase t.key ∧
        (removeLoop now fuel m h).2.2.length < h.length) := by
  induction fuel generalizing h with
  | zero => exact ⟨List.Sublist.refl _, Or.inl ⟨rfl, rfl⟩⟩
  | succ fuel ih =>
    rw [removeLoop_succ]
    cases ht : Heap.top h with
    | none => exact ⟨List.Sublist.refl _, Or.inl ⟨rfl, rfl⟩⟩
    | some top =>
      simp only
      by_cases hfut : top.expires_at > now
      · rw [if_pos hfut]
        exact ⟨List.Sublist.refl _, Or.inl ⟨rfl, rfl⟩⟩
      · rw [if_neg hfut]
        have hpop := Heap.pop_sublist h
        have hlen := Heap.pop_length ht
        have hrec : (removeLoop now fuel m (Heap.pop h)).2.2.Sublist h ∧
            (((removeLoop now fuel m (Heap.pop h)).1 = none ∧
                (removeLoop now fuel m (Heap.pop h)).2.1 = m) ∨
              ∃ t e, (removeLoop now fuel m (Heap.pop h)).1 = some (t.key, e.value) ∧
                m.lookup t.key = some e ∧ e.expires_at = t.expires_at ∧
                t.expires_at ≤ now ∧ t ∈ h ∧
                (removeLoop now fuel m (Heap.pop h)).2.1 = m.erase t.key ∧
                (removeLoop now fuel m (Heap.pop h)).2.2.length < h.length) := by
          obtain ⟨hsub, hres⟩ := ih (Heap.pop h)
          refine ⟨hsub.trans hpop, ?_⟩
          rcases hres with hnone | ⟨t, e, h1, h2, h3, h4, h5, h6, h7⟩
          · exact Or.inl hnone
          · exact Or.inr ⟨t, e, h1, h2, h3, h4, hpop.subset h5, h6, by omega⟩
        cases hl : m.lookup top.key with
        | none => exact hrec
        | some e =>
          simp only
          by_cases hne : e.expires_at ≠ top.expires_at
          · rw [if_pos hne]; exact hrec
          · rw [if_neg hne]
            refine ⟨hpop, Or.inr ⟨top, e, rfl, hl, not_not.1 hne, not_lt.1 hfut,
              Heap.top_mem ht, rfl, by simp only; omega⟩⟩

/-- The loop of `removeOneExpiredEntry` needs no more iterations than the index has
candidates: any two iteration bounds at least that large give the same result. -/
theorem removeLoop_fuel (now : time_point) (f1 f2 : Nat) (m : Map) (h : Heap)
    (h1 : h.length ≤ f1) (h2 : h.length ≤ f2) :
    removeLoop now f1 m h = removeLoop now f2 m h := by
  induction f1 generalizing f2 h with
  | zero =>
    have hnil : h = [] := List.length_eq_zero.1 (Nat.le_zero.1 h1)
    subst hnil
    cases f2 <;> rfl
  | succ f1 ih =>
    cases f2 with
    | zero =>
      have hnil : h = [] := List.length_eq_zero.1 (Nat.le_zero.1 h2)
      subst hnil
      rfl
    | succ f2 =>
      rw [removeLoop_succ, removeLoop_succ]
      cases ht : Heap.top h with
      | none => rfl
      | some top =>
        have hlen := Heap.pop_length ht
        rw [ih f2 (Heap.pop h) (by omega) (by omega)]

theorem removeOneExpiredEntry_cases (now : time_point) (s : KVStorage) :
    (s.removeOneExpiredEntry now).2.expiry_heap_.Sublist s.expiry_heap_ ∧
    (((s.removeOneExpiredEntry now).1 = none ∧ (s.removeOneExpiredEntry now).2.map_ = s.map_) ∨
      ∃ t e, (s.removeOneExpiredEntry now).1 = some (t.key, e.value) ∧
        s.map_.lookup t.key = some e ∧ e.expires_at = t.expires_at ∧ t.expires_at ≤ now ∧
        t ∈ s.expiry_heap_ ∧ (s.removeOneExpiredEntry now).2.map_ = s.map_.erase t.key ∧
        (s.removeOneExpiredEntry now).2.expiry_heap_.length < s.expiry_heap_.length) :=
  removeLoop_cases now s.expiry_heap_.length s.map_ s.expiry_heap_

/-- A call that returns an entry leaves fewer candidates in the index. -/
theorem removeOneExpiredEntry_length {now : time_point} {s : KVStorage}
    (hret : (s.removeOneExpiredEntry now).1 ≠ none) :
    (s.removeOneExpiredEntry now).2.expiry_heap_.length < s.expiry_heap_.length := by
  rcases (removeOneExpiredEntry_cases now s).2 with ⟨hnone, _⟩ | ⟨t, e, _, _, _, _, _, _, h7⟩
  · exact absurd hnone hret
  · exact h7

theorem evictMany_absent (now : time_point) (n : Nat) (s : KVStorage)
    (hn : s.expiry_heap_.length ≤ n) :
    ∃ i, i ≤ s.expiry_heap_.length ∧ ((evictMany now i s).removeOneExpiredEntry now).1 = none := by
  induction n generalizing s with
  | zero =>
    refine ⟨0, Nat.zero_le _, ?_⟩
    have hnil : s.expiry_heap_ = [] := List.length_eq_zero.1 (Nat.le_zero.1 hn)
    simp [evictMany, removeOneExpiredEntry, hnil, removeLoop]
  | succ n ih =>
    by_cases hret : (s.removeOneExpiredEntry now).1 = none
    · exact ⟨0, Nat.zero_le _, hret⟩
    · have hlen := removeOneExpiredEntry_length hret
      obtain ⟨i, hi, hres⟩ := ih (s.removeOneExpiredEntry now).2 (by omega)
      exact ⟨i + 1, by omega, hres⟩

theorem indexCovers_empty : IndexCovers empty := by
  intro k e h
  simp [empty] at h

theorem indexCovers_set (C : Clock) (now : time_point) (s : KVStorage) (k v : string)
    (ttl : Nat) (hs : IndexCovers s) : IndexCovers (s.set C now k v ttl) := by
  intro k' e h
  rw [set_heap]
  by_cases hk : k' = k
  · subst hk
    rw [set_lookup_self] at h
    cases h
    exact List.mem_cons_self _ _
  · rw [set_lookup_other C now s k v ttl hk] at h
    exact List.mem_cons_of_mem _ (hs k' e h)

theorem indexCovers_remove (s : KVStorage) (k : string) (hs : IndexCovers s) :
    IndexCovers (s.remove k).2 := by
  intro k' e h
  rw [remove_heap]
  rw [remove_map] at h
  by_cases hk : k' = k
  · subst hk
    rw [AList.lookup_erase] at h
    cases h
  · rw [AList.lookup_erase_ne hk] at h
    exact hs k' e h

/-- Popping a candidate that matches no record of the map keeps the index covering. -/
theorem indexCovers_pop_stale {m : Map} {h : Heap} {top : ExpItem}
    (hs : IndexCovers { map_ := m, expiry_heap_ := h }) (ht : Heap.top h = some top)
    (hstale : ∀ e, m.lookup top.key = some e → e.expires_at ≠ top.expires_at) :
    IndexCovers { map_ := m, expiry_heap_ := Heap.pop h } := by
  intro k e hl
  refine Heap.mem_pop_of_ne ht (hs k e hl) ?_
  intro heq
  have hk : k = top.key := congrArg ExpItem.key heq
  have he : e.expires_at = top.expires_at := congrArg ExpItem.expires_at heq
  subst hk
  exact hstale e hl he

/-- Popping the candidate of a record while erasing the record keeps the index covering. -/
theorem indexCovers_pop_erase {m : Map} {h : Heap} {top : ExpItem}
    (hs : IndexCovers { map_ := m, expiry_heap_ := h }) (ht : Heap.top h = some top) :
    IndexCovers { map_ := m.erase top.key, expiry_heap_ := Heap.pop h } := by
  intro k e hl
  have hl' : (m.erase top.key).lookup k = some e := hl
  by_cases hk : k = top.key
  · subst hk
    rw [AList.lookup_erase] at hl'
    cases hl'
  · rw [AList.lookup_erase_ne hk] at hl'
    refine Heap.mem_pop_of_ne ht (hs k e hl') ?_
    intro heq
    exact hk (congrArg ExpItem.key heq)

theorem indexCovers_removeLoop (now : time_point) (fuel : Nat) (m : Map) (h : Heap)
    (hs : IndexCovers { map_ := m, expiry_heap_ := h }) :
    IndexCovers { map_ := (removeLoop now fuel m h).2.1,
                  expiry_heap_ := (removeLoop now fuel m h).2.2 } := by
  induction fuel generalizing h with
  | zero => exact hs
  | succ fuel ih =>
    rw [removeLoop_succ]
    cases ht : Heap.top h with
    | none => exact hs
    | some top =>
      simp only
      by_cases hfut : top.expires_at > now
      · rw [if_pos hfut]; exact hs
      · rw [if_neg hfut]
        cases hl : m.lookup top.key with
        | none =>
          exact ih _ (indexCovers_pop_stale hs ht (by intro e he; rw [hl] at he; cases he))
        | some e =>
          simp only
          by_cases hne : e.expires_at ≠ top.expires_at
          · rw [if_pos hne]
            refine ih _ (indexCovers_pop_stale hs ht ?_)
            intro e' he'
            rw [hl] at he'
            cases he'
            exact hne
          · rw [if_neg hne]
            exact indexCovers_pop_erase hs ht

theorem indexCovers_removeOneExpiredEntry (now : time_point) (s : KVStorage)
    (hs : IndexCovers s) : IndexCovers (s.removeOneExpiredEntry now).2 :=
  indexCovers_removeLoop now s.expiry_heap_.length s.map_ s.expiry_heap_ hs

theorem indexCovers_step (C : Clock) (s : KVStorage) (op : Op) (hs : IndexCovers s) :
    IndexCovers (step C s op) := by
  cases op with
  | set now key value ttl => exact indexCovers_set C now s key value ttl hs
  | remove key => exact indexCovers_remove s key hs
  | get now key => exact hs
  | getManySorted now key count => exact hs
  | removeOneExpiredEntry now => exact indexCovers_removeOneExpiredEntry now s hs

theorem indexCovers_run (C : Clock) (s : KVStorage) (ops : List Op) (hs : IndexCovers s) :
    IndexCovers (run C s ops) := by
  induction ops generalizing s with
  | nil => exact hs
  | cons op ops ih => exact ih _ (indexCovers_step C s op hs)

theorem indexCovers_construct (C : Clock) (entries : List (time_point × string × string × Nat)) :
    IndexCovers (construct C entries) := by
  unfold construct
  have key : ∀ (s : KVStorage), IndexCovers s →
      IndexCovers (entries.foldl (fun s t => s.set C t.1 t.2.1 t.2.2.1 t.2.2.2) s) := by
    induction entries with
    | nil => intro s hs; exact hs
    | cons t ts ih => intro s hs; exact ih _ (indexCovers_set C _ s _ _ _ hs)
  exact key empty indexCovers_empty

theorem indexCovers_of_reachable {C : Clock} {s : KVStorage} (h : Reachable C s) :
    IndexCovers s := by
  obtain ⟨entries, ops, rfl⟩ := h
  exact indexCovers_run C _ ops (indexCovers_construct C entries)

/-- While the index covers the map and some record is due, the loop of
`removeOneExpiredEntry` returns an entry. -/
theorem removeLoop_ne_none (now : time_point) (fuel : Nat) (m : Map) (h : Heap)
    (hs : IndexCovers { map_ := m, expiry_heap_ := h }) (hfuel : h.length ≤ fuel)
    {k : string} {e : Entry} (hk : m.lookup k = some e) (hdue : e.expires_at ≤ now) :
    (removeLoop now fuel m h).1 ≠ none := by
  induction fuel generalizing h with
  | zero =>
    have hnil : h = [] := List.length_eq_zero.1 (Nat.le_zero.1 hfuel)
    subst hnil
    exact absurd (hs k e hk) (List.not_mem_nil _)
  | succ fuel ih =>
    rw [removeLoop_succ]
    have hmem : ({ key := k, expires_at := e.expires_at } : ExpItem) ∈ h := hs k e hk
    obtain ⟨top, ht⟩ := Heap.top_of_mem hmem
    have hle : top.le { key := k, expires_at := e.expires_at } := Heap.top_le ht _ hmem
    have hnf : ¬ top.expires_at > now := by
      rcases hle with h1 | ⟨h1, _⟩
      · exact not_lt.2 (le_trans (le_of_lt h1) hdue)
      · exact not_lt.2 (h1 ▸ hdue)
    have hlen := Heap.pop_length ht
    rw [ht]
    simp only
    rw [if_neg hnf]
    cases hl : m.lookup top.key with
    | none =>
      exact ih _ (indexCovers_pop_stale hs ht (by intro e he; rw [hl] at he; cases he))
        (by omega)
    | some e' =>
      simp only
      by_cases hne : e'.expires_at ≠ top.expires_at
      · rw [if_pos hne]
        refine ih _ (indexCovers_pop_stale hs ht ?_) (by omega)
        intro e'' he''
        rw [hl] at he''
        cases he''
        exact hne
      · rw [if_neg hne]
        simp

/-- While the index covers the map, the entry the loop of `removeOneExpiredEntry` returns
is least among the records of the map in the order of the index. -/
theorem removeLoop_least (now : time_point) (fuel : Nat) (m : Map) (h : Heap)
    (hs : IndexCovers { map_ := m, expiry_heap_ := h }) {k v : string}
    (hret : (removeLoop now fuel m h).1 = some (k, v)) :
    ∃ exp, m.lookup k = some { value := v, expires_at := exp } ∧ exp ≤ now ∧
      ∀ k' e', m.lookup k' = some e' →
        ExpItem.le { key := k, expires_at := exp } { key := k', expires_at := e'.expires_at } := by
  induction fuel generalizing h with
  | zero => simp [removeLoop] at hret
  | succ fuel ih =>
    rw [removeLoop_succ] at hret
    cases ht : Heap.top h with
    | none => rw [ht] at hret; simp at hret
    | some top =>
      rw [ht] at hret
      simp only at hret
      by_cases hfut : top.expires_at > now
      · rw [if_pos hfut] at hret; simp at hret
      · rw [if_neg hfut] at hret
        cases hl : m.lookup top.key with
        | none =>
          rw [hl] at hret
          exact ih _ (indexCovers_pop_stale hs ht (by intro e he; rw [hl] at he; cases he)) hret
        | some e =>
          rw [hl] at hret
          simp only at hret
          by_cases hne : e.expires_at ≠ top.expires_at
          · rw [if_pos hne] at hret
            refine ih _ (indexCovers_pop_stale hs ht ?_) hret
            intro e' he'
            rw [hl] at he'
            cases he'
            exact hne
          · rw [if_neg hne] at hret
            simp only [Option.some.injEq, Prod.mk.injEq] at hret
            obtain ⟨hk, hv⟩ := hret
            have hexp : e.expires_at = top.expires_at := not_not.1 hne
            refine ⟨top.expires_at, ?_, not_lt.1 hfut, ?_⟩
            · rw [← hk, hl, ← hv, ← hexp]
            · intro k' e' hl'
              have := Heap.top_le ht _ (hs k' e' hl')
              rw [← hk]
              exact this

/-- A record that is not yet due at `now` is still in the map after
`removeOneExpiredEntry` at `now`. -/
theorem removeOneExpiredEntry_keeps {now : time_point} {s : KVStorage} {k : string}
    {e : Entry} (hk : s.map_.lookup k = some e) (hnd : now < e.expires_at) :
    (s.removeOneExpiredEntry now).2.map_.lookup k = some e := by
  rcases (removeOneExpiredEntry_cases now s).2 with ⟨_, hmap⟩ | ⟨t, e', _, h2, h3, h4, _, h6, _⟩
  · rw [hmap]; exact hk
  · rw [h6]
    by_cases hkt : k = t.key
    · subst hkt
      rw [hk] at h2
      cases h2
      rw [h3] at hnd
      exact absurd h4 (not_le.2 hnd)
    · rw [AList.lookup_erase_ne hkt]; exact hk

theorem step_keeps (C : Clock) (s : KVStorage) (op : Op) {k : string} {e : Entry}
    (hk : s.map_.lookup k = some e) (ht : Op.touches k op = false)
    (hev : Op.evictsBelow e.expires_at op = true) :
    (step C s op).map_.lookup k = some e := by
  cases op with
  | set now key value ttl =>
    have hne : k ≠ key := by
      intro h
      simp [Op.touches, h] at ht
    simp only [step]
    rw [set_lookup_other C now s key value ttl hne]; exact hk
  | remove key =>
    have hne : k ≠ key := by
      intro h
      simp [Op.touches, h] at ht
    simp only [step]
    rw [remove_map, AList.lookup_erase_ne hne]; exact hk
  | get now key => exact hk
  | getManySorted now key count => exact hk
  | removeOneExpiredEntry now =>
    simp only [Op.evictsBelow, decide_eq_true_eq] at hev
    exact removeOneExpiredEntry_keeps hk hev

theorem run_keeps (C : Clock) (s : KVStorage) (ops : List Op) {k : string} {e : Entry}
    (hk : s.map_.lookup k = some e) (ht : ∀ op ∈ ops, Op.touches k op = false)
    (hev : ∀ op ∈ ops, Op.evictsBelow e.expires_at op = true) :
    (run C s ops).map_.lookup k = some e := by
  induction ops generalizing s with
  | nil => exact hk
  | cons op ops ih =>
    exact ih (step C s op)
      (step_keeps C s op hk (ht op (List.mem_cons_self _ _)) (hev op (List.mem_cons_self _ _)))
      (fun o ho => ht o (List.mem_cons_of_mem _ ho))
      (fun o ho => hev o (List.mem_cons_of_mem _ ho))

theorem evictsBelow_of_not_isEvict {op : Op} (h : Op.isEvict op = false) (b : time_point) :
    Op.evictsBelow b op = true := by
  cases op <;> simp [Op.isEvict, Op.evictsBelow] at h ⊢

/-- A call whose least candidate is not yet due returns absent and changes nothing. -/
theorem removeOneExpiredEntry_future {now : time_point} {s : KVStorage} {top : ExpItem}
    (ht : Heap.top s.expiry_heap_ = some top) (hfut : top.expires_at > now) :
    s.removeOneExpiredEntry now = (none, s) := by
  have hlen := Heap.pop_length ht
  obtain ⟨n, hn⟩ : ∃ n, s.expiry_heap_.length = n + 1 := ⟨(Heap.pop s.expiry_heap_).length, hlen.symm⟩
  unfold removeOneExpiredEntry
  rw [hn, removeLoop_succ, ht]
  simp only
  rw [if_pos hfut]

/-- The first call on the store of one `set` on the empty store, made when the record is
due, returns the record and empties both containers. -/
theorem removeOneExpiredEntry_single (C : Clock) (t now : time_point) (k v : string)
    (ttl : Nat) (hdue : expiresAt C t ttl ≤ now) :
    (empty.set C t k v ttl).removeOneExpiredEntry now =
      (some (k, v), { map_ := (empty.set C t k v ttl).map_.erase k, expiry_heap_ := [] }) := by
  have hnf : ¬ (expiresAt C t ttl > now) := not_lt.2 hdue
  have hl : (empty.set C t k v ttl).map_.lookup k =
      some { value := v, expires_at := expiresAt C t ttl } := set_lookup_self C t empty k v ttl
  have hh : (empty.set C t k v ttl).expiry_heap_ =
      [{ key := k, expires_at := expiresAt C t ttl }] := rfl
  unfold removeOneExpiredEntry
  rw [hh]
  simp only [List.length_singleton, removeLoop_succ, Heap.top, List.foldl_nil, hnf, if_false,
    hl, ne_eq, not_true_eq_false, Heap.pop, List.erase_cons_head]

/-- A call on a store with an empty index returns absent. -/
theorem removeOneExpiredEntry_nil {now : time_point} {s : KVStorage}
    (h : s.expiry_heap_ = []) : (s.removeOneExpiredEntry now).1 = none := by
  unfold removeOneExpiredEntry
  rw [h]
  rfl

/-- One step of the counted loop of `removeOneExpiredEntry`, spelled out. -/
theorem removeLoopCounted_succ (now : time_point) (budget : Nat) (m : Map) (h : Heap) :
    removeLoopCounted now (budget + 1) m h =
      match Heap.top h with
      | none => some ((none, m, h), 0)
      | some top =>
        if top.expires_at > now then some ((none, m, h), 1)
        else
          match m.lookup top.key with
          | none =>
            (removeLoopCounted now budget m (Heap.pop h)).map (fun r => (r.1, r.2 + 1))
          | some e =>
            if e.expires_at ≠ top.expires_at then
              (removeLoopCounted now budget m (Heap.pop h)).map (fun r => (r.1, r.2 + 1))
            else some ((some (top.key, e.value), m.erase top.key, Heap.pop h), 1) := rfl

/-- With more evaluations of the loop condition allowed than the index has candidates,
the counted loop returns what `removeLoop` returns, after at most as many executions of
the loop body as the index has candidates. -/
theorem removeLoopCounted_eq (now : time_point) (budget fuel : Nat) (m : Map) (h : Heap)
    (hb : h.length < budget) (hf : h.length ≤ fuel) :
    ∃ n, n ≤ h.length ∧
      removeLoopCounted now budget m h = some (removeLoop now fuel m h, n) := by
  induction budget generalizing fuel h with
  | zero => exact absurd hb (Nat.not_lt_zero _)
  | succ budget ih =>
    cases fuel with
    | zero =>
      have hnil : h = [] := List.length_eq_zero.1 (Nat.le_zero.1 hf)
      subst hnil
      exact ⟨0, le_refl _, rfl⟩
    | succ fuel =>
      rw [removeLoopCounted_succ, removeLoop_succ]
      cases ht : Heap.top h with
      | none => exact ⟨0, Nat.zero_le _, rfl⟩
      | some top =>
        have hlen := Heap.pop_length ht
        simp only
        by_cases hfut : top.expires_at > now
        · rw [if_pos hfut, if_pos hfut]
          exact ⟨1, by omega, rfl⟩
        · rw [if_neg hfut, if_neg hfut]
          obtain ⟨n, hn, hrec⟩ := ih fuel (Heap.pop h) (by omega) (by omega)
          cases hl : m.lookup top.key with
          | none =>
            simp only
            rw [hrec]
            exact ⟨n + 1, by omega, rfl⟩
          | some e =>
            simp only
            by_cases hne : e.expires_at ≠ top.expires_at
            · rw [if_pos hne, if_pos hne, hrec]
              exact ⟨n + 1, by omega, rfl⟩
            · rw [if_neg hne, if_neg hne]
              exact ⟨1, by omega, rfl⟩

/-- The counted loop gives one result for all numbers of allowed evaluations of the loop
condition above the number of candidates of the index. -/
theorem removeLoopCounted_budget (now : time_point) (b1 b2 : Nat) (m : Map) (h : Heap)
    (h1 : h.length < b1) (h2 : h.length < b2) :
    removeLoopCounted now b1 m h = removeLoopCounted now b2 m h := by
  induction b1 generalizing b2 h with
  | zero => exact absurd h1 (Nat.not_lt_zero _)
  | succ b1 ih =>
    cases b2 with
    | zero => exact absurd h2 (Nat.not_lt_zero _)
    | succ b2 =>
      rw [removeLoopCounted_succ, removeLoopCounted_succ]
      cases ht : Heap.top h with
      | none => rfl
      | some top =>
        have hlen := Heap.pop_length ht
        rw [ih b2 (Heap.pop h) (by omega) (by omega)]

/-- The results of `getManySorted` from one start key are the prefixes of one list: the
pairs of the live records with keys from the start key on, in strictly ascending key
order. -/
theorem getManySorted_take (C : Clock) (now : time_point) (s : KVStorage) (key : string) :
    ∃ L : List (string × string),
      L.Sorted (fun a b => a.1 < b.1) ∧
      (∀ k v, (k, v) ∈ L ↔ ∃ e, s.map_.lookup k = some e ∧ e.value = v ∧
          (e.expires_at = C.max ∨ now < e.expires_at) ∧ key ≤ k) ∧
      ∀ count, s.getManySorted C now key count = L.take count := by
  have hsorted : ((liveKeys C now s.map_).insertionSort (fun a b => a ≤ b)).Sorted
      (fun a b => a ≤ b) := List.sorted_insertionSort _ _
  have hperm := List.perm_insertionSort (fun a b : string => a ≤ b) (liveKeys C now s.map_)
  have hlt : ((liveKeys C now s.map_).insertionSort (fun a b => a ≤ b)).Sorted
      (fun a b => a < b) :=
    hsorted.lt_of_le (hperm.nodup_iff.2 (liveKeys_nodup C now s.map_))
  refine ⟨(lower_bound ((liveKeys C now s.map_).insertionSort (fun a b => a ≤ b))
      key).filterMap (fun k => (s.map_.lookup k).map (fun e => (k, e.value))), ?_, ?_, ?_⟩
  · rw [lower_bound_eq_filter _ _ hsorted]
    refine List.Pairwise.filterMap _ ?_ (List.Pairwise.sublist (List.filter_sublist _) hlt)
    intro a a' haa b hb b' hb'
    simp only [Option.mem_def, Option.map_eq_some'] at hb hb'
    obtain ⟨e, _, rfl⟩ := hb
    obtain ⟨e', _, rfl⟩ := hb'
    exact haa
  · intro k v
    rw [lower_bound_eq_filter _ _ hsorted]
    simp only [List.mem_filterMap, Option.map_eq_some', Prod.mk.injEq, List.mem_filter,
      hperm.mem_iff, mem_liveKeys, decide_eq_true_eq]
    constructor
    · rintro ⟨k', ⟨⟨e', he', hlive⟩, hge⟩, e, he, rfl, rfl⟩
      have hee : e = e' := Option.some.inj (he.symm.trans he')
      subst hee
      exact ⟨_, he, rfl, hlive, hge⟩
    · rintro ⟨e, he, rfl, hlive, hge⟩
      exact ⟨k, ⟨⟨e, he, hlive⟩, hge⟩, e, he, rfl, rfl⟩
  · intro count
    simp [getManySorted, collect_eq]

/-- The filter of `get`: it returns `v` exactly for a record with value `v` whose
`expires_at` is the never sentinel or after `now`. -/
theorem get_eq_some_iff {C : Clock} {now : time_point} {s : KVStorage} {k v : string} :
    s.get C now k = some v ↔ ∃ e, s.map_.lookup k = some e ∧ e.value = v ∧
      (e.expires_at = C.max ∨ now < e.expires_at) := by
  cases hl : s.map_.lookup k with
  | none => simp [get_of_lookup_none hl]
  | some e =>
    rw [get_of_lookup_some hl]
    by_cases hlive : e.expires_at = C.max ∨ now < e.expires_at
    · simp [hlive]
    · simp [hlive]

/-- A list in strictly ascending key order whose keys are all at least `k` begins with
its pair of key `k`, if it has one. -/
theorem take_one_of_sorted {L : List (string × string)} {k v : string}
    (hs : L.Sorted (fun a b => a.1 < b.1)) (hge : ∀ p ∈ L, k ≤ p.1) (hmem : (k, v) ∈ L) :
    L.take 1 = [(k, v)] := by
  cases L with
  | nil => cases hmem
  | cons a t =>
    have hs' := List.sorted_cons.1 hs
    rcases List.mem_cons.1 hmem with h | h
    · rw [← h]; rfl
    · have h1 : a.1 < k := hs'.1 (k, v) h
      have h2 : k ≤ a.1 := hge a (List.mem_cons_self _ _)
      exact absurd h1 (not_lt.2 h2)

/-- The loop of the constructor at one clock value, started on any store, is `set` on each
triple in order. -/
theorem foldl_set_eq_setInOrder (C : Clock) (now : time_point)
    (entries : List (string × string × Nat)) (s : KVStorage) :
    (entries.map (fun e => (now, e))).foldl
      (fun s t => s.set C t.1 t.2.1 t.2.2.1 t.2.2.2) s = setInOrder C now s entries := by
  induction entries generalizing s with
  | nil => rfl
  | cons e rest ih =>
    obtain ⟨k, v, ttl⟩ := e
    exact ih (s.set C now k v ttl)

theorem setInOrder_append (C : Clock) (now : time_point) (s : KVStorage)
    (l1 l2 : List (string × string × Nat)) :
    setInOrder C now s (l1 ++ l2) = setInOrder C now (setInOrder C now s l1) l2 := by
  induction l1 generalizing s with
  | nil => rfl
  | cons e rest ih =>
    obtain ⟨k, v, ttl⟩ := e
    exact ih (s.set C now k v ttl)

/-- The index after the `set` calls: a candidate for each triple, last triple first, on
top of the index before. -/
theorem setInOrder_heap (C : Clock) (now : time_point) (s : KVStorage)
    (entries : List (string × string × Nat)) :
    (setInOrder C now s entries).expiry_heap_ =
      (entries.map (fun e => ({ key := e.1, expires_at := expiresAt C now e.2.2 }
        : ExpItem))).reverse ++ s.expiry_heap_ := by
  induction entries generalizing s with
  | nil => rfl
  | cons e rest ih =>
    obtain ⟨k, v, ttl⟩ := e
    show (setInOrder C now (s.set C now k v ttl) rest).expiry_heap_ = _
    rw [ih, set_heap]
    simp [expiresAt]

/-- The `set` calls on triples with other keys leave the record of `k` as it was. -/
theorem setInOrder_lookup_other (C : Clock) (now : time_point) (s : KVStorage)
    (entries : List (string × string × Nat)) (k : string)
    (hne : ∀ e ∈ entries, e.1 ≠ k) :
    (setInOrder C now s entries).map_.lookup k = s.map_.lookup k := by
  induction entries generalizing s with
  | nil => rfl
  | cons e rest ih =>
    obtain ⟨k', v, ttl⟩ := e
    show (setInOrder C now (s.set C now k' v ttl) rest).map_.lookup k = _
    rw [ih _ (fun e he => hne e (List.mem_cons_of_mem _ he))]
    exact set_lookup_other C now s k' v ttl
      (Ne.symm (hne (k', v, ttl) (List.mem_cons_self _ _)))

/-- The store the loop of `removeOneExpiredEntry` ends in, and what it returns, when the
evaluations of its condition are bounded above the index size: the result of the call,
after at most as many executions of the loop body as the index has candidates. -/
theorem removeOneExpiredEntry_returns (now : time_point) (s : KVStorage) :
    ∃ iters, iters ≤ s.expiry_heap_.length ∧
      ∀ budget, s.expiry_heap_.length < budget →
        removeLoopCounted now budget s.map_ s.expiry_heap_ =
          some (((s.removeOneExpiredEntry now).1, (s.removeOneExpiredEntry now).2.map_,
            (s.removeOneExpiredEntry now).2.expiry_heap_), iters) := by
  obtain ⟨n, hn, heq⟩ := removeLoopCounted_eq now (s.expiry_heap_.length + 1)
    s.expiry_heap_.length s.map_ s.expiry_heap_ (Nat.lt_succ_self _) (le_refl _)
  refine ⟨n, hn, ?_⟩
  intro budget hb
  rw [removeLoopCounted_budget now budget (s.expiry_heap_.length + 1) s.map_ s.expiry_heap_
    hb (Nat.lt_succ_self _), heq]
  rfl

/-- One more call of `removeOneExpiredEntry` after `j` calls. -/
theorem evictMany_succ (now : time_point) (j : Nat) (s : KVStorage) :
    evictMany now (j + 1) s = ((evictMany now j s).removeOneExpiredEntry now).2 := by
  induction j generalizing s with
  | zero => rfl
  | succ j ih => exact ih (s.removeOneExpiredEntry now).2

/-! ## Time-to-live below the never sentinel -/

/-- Where `t + ttl` seconds is a `time_point` below the never sentinel
`time_point::max()`: for `ttl > 0`, after `set(k, v, ttl)` at clock value `t` and then any
calls that are no `set` or `remove` of `k` and no `removeOneExpiredEntry`, `get(k)` at
clock value `t'` returns `v` when `t' < t + ttl` seconds and absent when
`t' ≥ t + ttl` seconds, the boundary instant included. -/
theorem get_after_set_ttl (C : Clock) (s : KVStorage) (t : time_point) (k v : string)
    (ttl : Nat) (httl : 0 < ttl) (hrep : t + C.seconds ttl < C.max) (ops : List Op)
    (hk : ∀ op ∈ ops, Op.touches k op = false) (hev : ∀ op ∈ ops, Op.isEvict op = false)
    (t' : time_point) :
    (run C (s.set C t k v ttl) ops).get C t' k =
      if t' < t + C.seconds ttl then some v else none := by
  have hne : ttl ≠ 0 := Nat.pos_iff_ne_zero.1 httl
  have hl : (run C (s.set C t k v ttl) ops).map_.lookup k =
      some { value := v, expires_at := t + C.seconds ttl } := by
    refine run_keeps C _ ops ?_ hk (fun op hop => evictsBelow_of_not_isEvict (hev op hop) _)
    rw [set_lookup_self, if_neg hne]
  rw [get_of_lookup_some hl]
  simp [ne_of_lt hrep]

/-- An instance of `get_after_set_ttl`: one second after `set("k", "v", 1)` at clock value
0, with calls on other keys in between, `get("k")` is absent. -/
theorem get_after_set_ttl_example :
    (0 : Nat) < 1 ∧ (0 : time_point) + steady_clock.seconds 1 < steady_clock.max ∧
    (∀ op ∈ opsOther, Op.touches [107] op = false) ∧
    (∀ op ∈ opsOther, Op.isEvict op = false) ∧
    (run steady_clock (empty.set steady_clock 0 [107] [118] 1) opsOther).get steady_clock
      1000000000 [107] = none :=
  ⟨by decide, by decide, by decide, by decide,
    (get_after_set_ttl steady_clock empty 0 [107] [118] 1 (by decide) (by decide) opsOther
      (by decide) (by decide) 1000000000).trans (by decide)⟩

/-- While every `removeOneExpiredEntry` call is made at a clock value below the never
sentinel `time_point::max()`: after `set(k, v, 0)` and then any calls that are no `set` or
`remove` of `k`, the map has `k` with value `v` and the sentinel as `expires_at`, `get(k)`
returns `v` at every clock value, and `removeOneExpiredEntry` at a clock value below the
sentinel does not return `k`. -/
theorem get_after_set_never (C : Clock) (s : KVStorage) (t : time_point) (k v : string)
    (ops : List Op) (hk : ∀ op ∈ ops, Op.touches k op = false)
    (hev : ∀ op ∈ ops, Op.evictsBelow C.max op = true) :
    (run C (s.set C t k v 0) ops).map_.lookup k = some { value := v, expires_at := C.max } ∧
    (∀ now, (run C (s.set C t k v 0) ops).get C now k = some v) ∧
    (∀ now v', now < C.max →
      ((run C (s.set C t k v 0) ops).removeOneExpiredEntry now).1 ≠ some (k, v')) := by
  have hl : (run C (s.set C t k v 0) ops).map_.lookup k =
      some { value := v, expires_at := C.max } := by
    refine run_keeps C _ ops ?_ hk hev
    rw [set_lookup_self, if_pos rfl]
  refine ⟨hl, ?_, ?_⟩
  · intro now
    rw [get_of_lookup_some hl]
    simp
  · intro now v' hnow hret
    rcases (removeOneExpiredEntry_cases now (run C (s.set C t k v 0) ops)).2 with
      ⟨hnone, _⟩ | ⟨c, e, h1, h2, h3, h4, _⟩
    · rw [hnone] at hret; cases hret
    · rw [h1] at hret
      simp only [Option.some.injEq, Prod.mk.injEq] at hret
      obtain ⟨hkey, _⟩ := hret
      rw [hkey, hl] at h2
      cases h2
      have hmax : C.max = c.expires_at := h3
      rw [← hmax] at h4
      exact absurd h4 (not_le.2 hnow)

/-- An instance of `get_after_set_never`: `set("k", "v", 0)`, then calls on other keys and
`removeOneExpiredEntry` calls up to one tick before `time_point::max()`. -/
theorem get_after_set_never_example :
    (∀ op ∈ opsEvict, Op.touches [107] op = false) ∧
    (∀ op ∈ opsEvict, Op.evictsBelow steady_clock.max op = true) ∧
    (run steady_clock (empty.set steady_clock 0 [107] [118] 0) opsEvict).map_.lookup [107] =
      some { value := [118], expires_at := steady_clock.max } ∧
    (∀ now, (run steady_clock (empty.set steady_clock 0 [107] [118] 0) opsEvict).get
      steady_clock now [107] = some [118]) ∧
    (∀ now v', now < steady_clock.max →
      ((run steady_clock (empty.set steady_clock 0 [107] [118] 0)
        opsEvict).removeOneExpiredEntry now).1 ≠ some ([107], v')) :=
  ⟨by decide, by decide,
    get_after_set_never steady_clock empty 0 [107] [118] opsEvict (by decide) (by decide)⟩

/-- Where `t2 + ttl2` seconds is a `time_point` below the never sentinel
`time_point::max()` (or `ttl2 == 0`): after `set(k, v1, ttl1)` at `t1` and then
`set(k, v2, ttl2)` at `t2`, whatever `v1`, `ttl1` and `t1`, the map record of `k` has value
`v2` and `expires_at` the never sentinel when `ttl2 == 0` and `t2 + ttl2` seconds
otherwise, and `get(k)` at clock value `t` returns `v2` exactly when `ttl2 == 0` or
`t < t2 + ttl2` seconds, and absent otherwise. -/
theorem set_overwrites (C : Clock) (s : KVStorage) (k v1 v2 : string) (ttl1 ttl2 : Nat)
    (t1 t2 t : time_point) (hrep : ttl2 ≠ 0 → t2 + C.seconds ttl2 < C.max) :
    ((s.set C t1 k v1 ttl1).set C t2 k v2 ttl2).map_.lookup k =
      some { value := v2, expires_at := if ttl2 = 0 then C.max else t2 + C.seconds ttl2 } ∧
    ((s.set C t1 k v1 ttl1).set C t2 k v2 ttl2).get C t k =
      if ttl2 = 0 ∨ t < t2 + C.seconds ttl2 then some v2 else none := by
  refine ⟨set_lookup_self _ _ _ _ _ _, ?_⟩
  rw [get_of_lookup_some (set_lookup_self _ _ _ _ _ _)]
  by_cases h0 : ttl2 = 0
  · simp [h0]
  · simp [h0, ne_of_lt (hrep h0)]

/-- An instance of `set_overwrites`: `set("k", "1", 0)` and then `set("k", "2", 1)`, both
at clock value 0; at one second `get("k")` is absent, the first write notwithstanding. -/
theorem set_overwrites_example :
    ((1 : Nat) ≠ 0 → (0 : time_point) + steady_clock.seconds 1 < steady_clock.max) ∧
    ((empty.set steady_clock 0 [107] [49] 0).set steady_clock 0 [107] [50] 1).map_.lookup
      [107] = some { value := [50], expires_at := 1000000000 } ∧
    ((empty.set steady_clock 0 [107] [49] 0).set steady_clock 0 [107] [50] 1).get
      steady_clock 1000000000 [107] = none :=
  ⟨fun _ => by decide,
    (set_overwrites steady_clock empty [107] [49] [50] 0 1 0 0 1000000000
      (fun _ => by decide)).1.trans (by decide),
    (set_overwrites steady_clock empty [107] [49] [50] 0 1 0 0 1000000000
      (fun _ => by decide)).2.trans (by decide)⟩

/-- Where `t + ttl` seconds is a `time_point` below the never sentinel
`time_point::max()`: for `ttl > 0`, on the store of `set(k, v, ttl)` at clock value `t` on
the empty store, at clock value exactly `t + ttl` seconds `get(k)` returns absent,
`removeOneExpiredEntry` returns `(k, v)`, and the call after it returns absent. -/
theorem expiry_boundary (C : Clock) (t : time_point) (k v : string) (ttl : Nat)
    (httl : 0 < ttl) (hrep : t + C.seconds ttl < C.max) :
    (empty.set C t k v ttl).get C (t + C.seconds ttl) k = none ∧
    ((empty.set C t k v ttl).removeOneExpiredEntry (t + C.seconds ttl)).1 = some (k, v) ∧
    (((empty.set C t k v ttl).removeOneExpiredEntry (t + C.seconds ttl)).2.removeOneExpiredEntry
      (t + C.seconds ttl)).1 = none := by
  have hne : ttl ≠ 0 := Nat.pos_iff_ne_zero.1 httl
  have hexp : expiresAt C t ttl = t + C.seconds ttl := if_neg hne
  have hev := removeOneExpiredEntry_single C t (t + C.seconds ttl) k v ttl (le_of_eq hexp)
  refine ⟨?_, ?_, ?_⟩
  · rw [get_of_lookup_some (set_lookup_self C t empty k v ttl), if_neg hne]
    simp [ne_of_lt hrep]
  · rw [hev]
  · rw [hev]
    exact removeOneExpiredEntry_nil rfl

/-- The scenario of the specification, an instance of `expiry_boundary`: `set("k","v",1)`
at clock value 0, then at one second `get("k")` is absent, `removeOneExpiredEntry()`
returns `("k","v")`, and the call after it returns absent. -/
theorem expiry_boundary_example :
    (0 : Nat) < 1 ∧ (0 : time_point) + steady_clock.seconds 1 < steady_clock.max ∧
    (empty.set steady_clock 0 [107] [118] 1).get steady_clock (0 + steady_clock.seconds 1)
      [107] = none ∧
    ((empty.set steady_clock 0 [107] [118] 1).removeOneExpiredEntry
      (0 + steady_clock.seconds 1)).1 = some ([107], [118]) ∧
    (((empty.set steady_clock 0 [107] [118] 1).removeOneExpiredEntry
      (0 + steady_clock.seconds 1)).2.removeOneExpiredEntry
      (0 + steady_clock.seconds 1)).1 = none :=
  ⟨by decide, by decide, expiry_boundary steady_clock 0 [107] [118] 1 (by decide) (by decide)⟩

/-! ## The claims -/

/-- The scenario of the specification for `getManySorted`: after `set("a","1",0)`,
`set("b","2",0)`, `set("c","3",0)`, the call `getManySorted("b", 2)` returns
`[("b","2"),("c","3")]`. -/
theorem getManySorted_scenario :
    (((empty.set steady_clock 0 [97] [49] 0).set steady_clock 0 [98] [50] 0).set
      steady_clock 0 [99] [51] 0).getManySorted steady_clock 5 [98] 2 =
      [([98], [50]), ([99], [51])] := by decide

/-- C1: `getManySorted(key, count)` at clock value `now` returns the first
`min(count, m)` elements of the list `L` that holds exactly the pairs `(k, value of k)` of
the map records that are live at `now` (`expires_at` is the never sentinel or
`now < expires_at`) with `key ≤ k`, in strictly ascending key order, `m` being the length
of `L`; so the result has `min(count, m) ≤ count` pairs, in strictly ascending key order,
each a live record of the map with its stored value. -/
theorem getManySorted_spec (C : Clock) (now : time_point) (s : KVStorage) (key : string)
    (count : Nat) :
    ∃ L : List (string × string),
      L.Sorted (fun a b => a.1 < b.1) ∧
      (∀ k v, (k, v) ∈ L ↔ ∃ e, s.map_.lookup k = some e ∧ e.value = v ∧
          (e.expires_at = C.max ∨ now < e.expires_at) ∧ key ≤ k) ∧
      s.getManySorted C now key count = L.take (min count L.length) ∧
      (s.getManySorted C now key count).length = min count L.length ∧
      (s.getManySorted C now key count).length ≤ count ∧
      (s.getManySorted C now key count).Sorted (fun a b => a.1 < b.1) ∧
      (∀ k v, (k, v) ∈ s.getManySorted C now key count →
        ∃ e, s.map_.lookup k = some e ∧ e.value = v ∧
          (e.expires_at = C.max ∨ now < e.expires_at) ∧ key ≤ k) := by
  have hsorted : ((liveKeys C now s.map_).insertionSort (fun a b => a ≤ b)).Sorted
      (fun a b => a ≤ b) := List.sorted_insertionSort _ _
  have hperm := List.perm_insertionSort (fun a b : string => a ≤ b) (liveKeys C now s.map_)
  have hnodup : ((liveKeys C now s.map_).insertionSort (fun a b => a ≤ b)).Nodup :=
    hperm.nodup_iff.2 (liveKeys_nodup C now s.map_)
  have hlt : ((liveKeys C now s.map_).insertionSort (fun a b => a ≤ b)).Sorted
      (fun a b => a < b) := hsorted.lt_of_le hnodup
  have hfrom : (lower_bound ((liveKeys C now s.map_).insertionSort (fun a b => a ≤ b))
      key).Sorted (fun a b => a < b) := by
    rw [lower_bound_eq_filter _ _ hsorted]
    exact List.Pairwise.sublist (List.filter_sublist _) hlt
  have hmemfrom : ∀ k, k ∈ lower_bound ((liveKeys C now s.map_).insertionSort
      (fun a b => a ≤ b)) key ↔
      (∃ e, s.map_.lookup k = some e ∧ (e.expires_at = C.max ∨ now < e.expires_at)) ∧
        key ≤ k := by
    intro k
    rw [lower_bound_eq_filter _ _ hsorted, List.mem_filter, hperm.mem_iff, mem_liveKeys]
    simp
  have hres : s.getManySorted C now key count =
      ((lower_bound ((liveKeys C now s.map_).insertionSort (fun a b => a ≤ b))
        key).filterMap (fun k => (s.map_.lookup k).map (fun e => (k, e.value)))).take
        count := by
    simp [getManySorted, collect_eq]
  have hL : ((lower_bound ((liveKeys C now s.map_).insertionSort (fun a b => a ≤ b))
        key).filterMap (fun k => (s.map_.lookup k).map (fun e => (k, e.value)))).Sorted
        (fun a b => a.1 < b.1) := by
    refine List.Pairwise.filterMap _ ?_ hfrom
    intro a a' haa b hb b' hb'
    simp only [Option.mem_def, Option.map_eq_some'] at hb hb'
    obtain ⟨e, _, rfl⟩ := hb
    obtain ⟨e', _, rfl⟩ := hb'
    exact haa
  have hmemL : ∀ k v, (k, v) ∈ ((lower_bound ((liveKeys C now s.map_).insertionSort
        (fun a b => a ≤ b)) key).filterMap
          (fun k => (s.map_.lookup k).map (fun e => (k, e.value)))) ↔
      ∃ e, s.map_.lookup k = some e ∧ e.value = v ∧
          (e.expires_at = C.max ∨ now < e.expires_at) ∧ key ≤ k := by
    intro k v
    simp only [List.mem_filterMap, Option.map_eq_some', Prod.mk.injEq]
    constructor
    · rintro ⟨k', hk', e, he, rfl, rfl⟩
      obtain ⟨⟨e', he', hlive⟩, hge⟩ := (hmemfrom k').1 hk'
      rw [he] at he'
      cases he'
      exact ⟨e, he, rfl, hlive, hge⟩
    · rintro ⟨e, he, rfl, hlive, hge⟩
      exact ⟨k, (hmemfrom k).2 ⟨⟨e, he, hlive⟩, hge⟩, e, he, rfl, rfl⟩
  refine ⟨_, hL, hmemL, ?_, ?_, ?_, ?_, ?_⟩
  · rw [hres]
    rcases Nat.le_total count (List.length (List.filterMap
      (fun k => (s.map_.lookup k).map (fun e => (k, e.value)))
      (lower_bound ((liveKeys C now s.map_).insertionSort (fun a b => a ≤ b)) key)))
      with h | h
    · rw [min_eq_left h]
    · rw [min_eq_right h, List.take_of_length_le h, List.take_of_length_le (le_refl _)]
  · rw [hres, List.length_take]
  · rw [hres, List.length_take]
    exact min_le_left _ _
  · rw [hres]
    exact List.Pairwise.sublist (List.take_sublist _ _) hL
  · intro k v hkv
    rw [hres] at hkv
    exact (hmemL k v).1 (List.mem_of_mem_take hkv)

/-- C2, the failing input: `set("k", "v", 1)` on the empty store when the clock shows one
second less than `time_point::max()`.  The sum `now + seconds(1)` is `time_point::max()`,
the never sentinel, and is stored as `expires_at`.  At clock value `time_point::max()`, one
second later, `get("k")` returns `"v"` where the claim has absent, while
`removeOneExpiredEntry` at that clock value takes the record for expired and returns it. -/
theorem get_after_set_ttl_at_sentinel :
    (0 : Nat) < 1 ∧
    (9223372035854775807 : time_point) ≤ 9223372036854775807 ∧
    (9223372035854775807 : time_point) + steady_clock.seconds 1 ≤ 9223372036854775807 ∧
    (empty.set steady_clock 9223372035854775807 [107] [118] 1).map_.lookup [107] =
      some { value := [118], expires_at := steady_clock.max } ∧
    (empty.set steady_clock 9223372035854775807 [107] [118] 1).get steady_clock
      9223372036854775807 [107] = some [118] ∧
    ((empty.set steady_clock 9223372035854775807 [107] [118] 1).removeOneExpiredEntry
      9223372036854775807).1 = some ([107], [118]) := by decide

/-- C3, the failing input: `set("k", "v", 0)` on the empty store, then
`removeOneExpiredEntry()` when the clock shows `time_point::max()`.  At that clock value
`get("k")` returns `"v"` and `getManySorted("", 10)` lists `("k", "v")`, yet
`removeOneExpiredEntry` returns `("k", "v")` and erases the record: `get("k")` is absent
afterwards, where the claim has `"v"`. -/
theorem never_record_evicted_at_sentinel :
    (empty.set steady_clock 0 [107] [118] 0).get steady_clock steady_clock.max [107] =
      some [118] ∧
    (empty.set steady_clock 0 [107] [118] 0).getManySorted steady_clock steady_clock.max []
      10 = [([107], [118])] ∧
    ((empty.set steady_clock 0 [107] [118] 0).removeOneExpiredEntry steady_clock.max).1 =
      some ([107], [118]) ∧
    (run steady_clock (empty.set steady_clock 0 [107] [118] 0)
      [Op.removeOneExpiredEntry steady_clock.max]).map_.lookup [107] = none ∧
    (run steady_clock (empty.set steady_clock 0 [107] [118] 0)
      [Op.removeOneExpiredEntry steady_clock.max]).get steady_clock steady_clock.max [107] =
      none := by decide

/-- C4: when `removeOneExpiredEntry` returns `(k, v)` at clock value `now`, the map before
the call has `k` with value `v` and an `expires_at` not after `now`; after the call `k` is
absent from the map and every other key has the record it had: the map after is the map
before with the one key `k` erased. -/
theorem removeOneExpiredEntry_some (now : time_point) (s : KVStorage) (k v : string)
    (hret : (s.removeOneExpiredEntry now).1 = some (k, v)) :
    (∃ exp, s.map_.lookup k = some { value := v, expires_at := exp } ∧ exp ≤ now) ∧
    (s.removeOneExpiredEntry now).2.map_.lookup k = none ∧
    (∀ k', k' ≠ k → (s.removeOneExpiredEntry now).2.map_.lookup k' = s.map_.lookup k') ∧
    (s.removeOneExpiredEntry now).2.map_ = s.map_.erase k := by
  rcases (removeOneExpiredEntry_cases now s).2 with ⟨hnone, _⟩ | ⟨t, e, h1, h2, h3, h4, _, h6, _⟩
  · rw [hnone] at hret; cases hret
  · rw [h1] at hret
    simp only [Option.some.injEq, Prod.mk.injEq] at hret
    obtain ⟨hk, hv⟩ := hret
    subst hk
    refine ⟨⟨e.expires_at, ?_, h3 ▸ h4⟩, ?_, ?_, h6⟩
    · rw [h2, ← hv]
    · rw [h6, AList.lookup_erase]
    · intro k' hk'
      rw [h6, AList.lookup_erase_ne hk']

/-- C4, an instance: one second after `set("k", "v", 1)`, `removeOneExpiredEntry` returns
`("k", "v")`. -/
theorem removeOneExpiredEntry_some_witness :
    (storeK.removeOneExpiredEntry 1000000000).1 = some ([107], [118]) ∧
    ((∃ exp, storeK.map_.lookup [107] = some { value := [118], expires_at := exp } ∧
        exp ≤ 1000000000) ∧
      (storeK.removeOneExpiredEntry 1000000000).2.map_.lookup [107] = none ∧
      (∀ k', k' ≠ [107] →
        (storeK.removeOneExpiredEntry 1000000000).2.map_.lookup k' = storeK.map_.lookup k') ∧
      (storeK.removeOneExpiredEntry 1000000000).2.map_ = storeK.map_.erase [107]) :=
  ⟨by decide, removeOneExpiredEntry_some 1000000000 storeK [107] [118] (by decide)⟩

/-- C5: when `removeOneExpiredEntry` returns absent, the map after the call is the map
before the call (same keys, values and expiration times); the expiry index after the call
is the index before with some candidates taken out. -/
theorem removeOneExpiredEntry_none (now : time_point) (s : KVStorage)
    (hret : (s.removeOneExpiredEntry now).1 = none) :
    (s.removeOneExpiredEntry now).2.map_ = s.map_ ∧
    (s.removeOneExpiredEntry now).2.expiry_heap_.Sublist s.expiry_heap_ := by
  refine ⟨?_, (removeOneExpiredEntry_cases now s).1⟩
  rcases (removeOneExpiredEntry_cases now s).2 with ⟨_, hmap⟩ | ⟨t, e, h1, _⟩
  · exact hmap
  · rw [h1] at hret; cases hret

/-- C5, an instance: before the second is over, `removeOneExpiredEntry` on the store of
`set("k", "v", 1)` returns absent. -/
theorem removeOneExpiredEntry_none_witness :
    (storeK.removeOneExpiredEntry 999999999).1 = none ∧
    ((storeK.removeOneExpiredEntry 999999999).2.map_ = storeK.map_ ∧
      (storeK.removeOneExpiredEntry 999999999).2.expiry_heap_.Sublist storeK.expiry_heap_) :=
  ⟨by decide, removeOneExpiredEntry_none 999999999 storeK (by decide)⟩

/-- C6: in a reachable state, if the map has `k` with an `expires_at` not after `now`,
then among the first `index size` calls of `removeOneExpiredEntry` repeated at clock value
`now` one returns `(k, value of k)`, and the first call does not return absent. -/
theorem reclaimed_eventually (C : Clock) (s : KVStorage) (hreach : Reachable C s)
    (now : time_point) (k : string) (e : Entry) (hk : s.map_.lookup k = some e)
    (hdue : e.expires_at ≤ now) :
    (∃ i, i + 1 ≤ s.expiry_heap_.length ∧
      ((evictMany now i s).removeOneExpiredEntry now).1 = some (k, e.value)) ∧
    (s.removeOneExpiredEntry now).1 ≠ none := by
  have hfirst : ∀ s' : KVStorage, IndexCovers s' → s'.map_.lookup k = some e →
      (s'.removeOneExpiredEntry now).1 ≠ none := fun s' hc hk' =>
    removeLoop_ne_none now _ s'.map_ s'.expiry_heap_ hc (le_refl _) hk' hdue
  refine ⟨?_, hfirst s (indexCovers_of_reachable hreach) hk⟩
  have key : ∀ (n : Nat) (s' : KVStorage), s'.expiry_heap_.length ≤ n → IndexCovers s' →
      s'.map_.lookup k = some e →
      ∃ i, i + 1 ≤ s'.expiry_heap_.length ∧
        ((evictMany now i s').removeOneExpiredEntry now).1 = some (k, e.value) := by
    intro n
    induction n with
    | zero =>
      intro s' hlen hc hk'
      have hnil : s'.expiry_heap_ = [] := List.length_eq_zero.1 (Nat.le_zero.1 hlen)
      have := hc k e hk'
      rw [hnil] at this
      exact absurd this (List.not_mem_nil _)
    | succ n ih =>
      intro s' hlen hc hk'
      rcases (removeOneExpiredEntry_cases now s').2 with
        ⟨hnone, _⟩ | ⟨t, e', h1, h2, _, _, _, h6, h7⟩
      · exact absurd hnone (hfirst s' hc hk')
      · by_cases hkt : k = t.key
        · subst hkt
          rw [hk'] at h2
          cases h2
          exact ⟨0, by omega, h1⟩
        · have hk'' : (s'.removeOneExpiredEntry now).2.map_.lookup k = some e := by
            rw [h6, AList.lookup_erase_ne hkt]; exact hk'
          obtain ⟨i, hi, hres⟩ := ih (s'.removeOneExpiredEntry now).2 (by omega)
            (indexCovers_removeOneExpiredEntry now s' hc) hk''
          exact ⟨i + 1, by omega, hres⟩
  exact key _ s (le_refl _) (indexCovers_of_reachable hreach) hk

/-- C6, an instance: in `storeAB` the record of `"a"` is due at one second. -/
theorem reclaimed_eventually_witness :
    Reachable steady_clock storeAB ∧
    storeAB.map_.lookup [97] = some { value := [49], expires_at := 1000000000 } ∧
    (1000000000 : time_point) ≤ 1000000000 ∧
    ((∃ i, i + 1 ≤ storeAB.expiry_heap_.length ∧
        ((evictMany 1000000000 i storeAB).removeOneExpiredEntry 1000000000).1 =
          some ([97], [49])) ∧
      (storeAB.removeOneExpiredEntry 1000000000).1 ≠ none) :=
  ⟨⟨_, _, rfl⟩, by decide, by decide,
    reclaimed_eventually steady_clock storeAB ⟨_, _, rfl⟩ 1000000000 [97]
      { value := [49], expires_at := 1000000000 } (by decide) (by decide)⟩

/-- C7: at every store, whatever candidates its index holds: if no record of the map has
`expires_at ≤ now`, the call of `removeOneExpiredEntry` at `now` returns absent, its loop
ending after at most `index size` executions of its body with the map as it was; and when
the call is repeated at the clock value `now`, every call returns and one of the first
`index size + 1` calls returns absent.  That a call returns is stated of the loop with the
evaluations of its condition bounded (`removeLoopCounted`), which gives no result when the
loop has not ended within the bound. -/
theorem removeOneExpiredEntry_absent (now : time_point) (s : KVStorage) :
    ((∀ k e, s.map_.lookup k = some e → now < e.expires_at) →
      (s.removeOneExpiredEntry now).1 = none ∧
      ∃ iters index, iters ≤ s.expiry_heap_.length ∧
        ∀ budget, s.expiry_heap_.length < budget →
          removeLoopCounted now budget s.map_ s.expiry_heap_ =
            some ((none, s.map_, index), iters)) ∧
    (∀ j, ∃ iters, ∀ budget, (evictMany now j s).expiry_heap_.length < budget →
      removeLoopCounted now budget (evictMany now j s).map_ (evictMany now j s).expiry_heap_ =
        some ((((evictMany now j s).removeOneExpiredEntry now).1,
          (evictMany now (j + 1) s).map_, (evictMany now (j + 1) s).expiry_heap_), iters)) ∧
    ∃ i, i + 1 ≤ s.expiry_heap_.length + 1 ∧
      ((evictMany now i s).removeOneExpiredEntry now).1 = none ∧
      ∃ iters index, ∀ budget, (evictMany now i s).expiry_heap_.length < budget →
        removeLoopCounted now budget (evictMany now i s).map_ (evictMany now i s).expiry_heap_ =
          some ((none, (evictMany now i s).map_, index), iters) := by
  have hnone : ∀ s' : KVStorage, (s'.removeOneExpiredEntry now).1 = none →
      ∃ iters index, iters ≤ s'.expiry_heap_.length ∧
        ∀ budget, s'.expiry_heap_.length < budget →
          removeLoopCounted now budget s'.map_ s'.expiry_heap_ =
            some ((none, s'.map_, index), iters) := by
    intro s' hret
    obtain ⟨iters, hle, hrun⟩ := removeOneExpiredEntry_returns now s'
    have hmap : (s'.removeOneExpiredEntry now).2.map_ = s'.map_ := by
      rcases (removeOneExpiredEntry_cases now s').2 with ⟨_, hm⟩ | ⟨t, e, h1, _⟩
      · exact hm
      · rw [h1] at hret; cases hret
    refine ⟨iters, (s'.removeOneExpiredEntry now).2.expiry_heap_, hle, ?_⟩
    intro budget hb
    rw [hrun budget hb, hret, hmap]
  refine ⟨?_, ?_, ?_⟩
  · intro hall
    have hret : (s.removeOneExpiredEntry now).1 = none := by
      rcases (removeOneExpiredEntry_cases now s).2 with ⟨h, _⟩ | ⟨t, e, _, h2, h3, h4, _⟩
      · exact h
      · have := hall t.key e h2
        rw [h3] at this
        exact absurd h4 (not_le.2 this)
    exact ⟨hret, hnone s hret⟩
  · intro j
    obtain ⟨iters, _, hrun⟩ := removeOneExpiredEntry_returns now (evictMany now j s)
    refine ⟨iters, ?_⟩
    intro budget hb
    rw [hrun budget hb, evictMany_succ now j s]
  · obtain ⟨i, hi, hres⟩ := evictMany_absent now s.expiry_heap_.length s (le_refl _)
    obtain ⟨iters, index, _, hrun⟩ := hnone (evictMany now i s) hres
    exact ⟨i, by omega, hres, iters, index, hrun⟩

/-- C7, an instance: `storeStale` has no record due at two seconds, only a stale
candidate; the call returns absent. -/
theorem removeOneExpiredEntry_absent_witness :
    (∀ k e, storeStale.map_.lookup k = some e → (2000000000 : time_point) < e.expires_at) ∧
    ((storeStale.removeOneExpiredEntry 2000000000).1 = none ∧
      ∃ iters index, iters ≤ storeStale.expiry_heap_.length ∧
        ∀ budget, storeStale.expiry_heap_.length < budget →
          removeLoopCounted 2000000000 budget storeStale.map_ storeStale.expiry_heap_ =
            some ((none, storeStale.map_, index), iters)) := by
  have hall : ∀ k e, storeStale.map_.lookup k = some e →
      (2000000000 : time_point) < e.expires_at := by
    intro k e h
    by_cases hk : k = [107]
    · subst hk
      have h' : storeStale.map_.lookup [107] =
          some { value := [50], expires_at := steady_clock.max } := by decide
      rw [h'] at h
      cases h
      decide
    · unfold storeStale at h
      rw [set_lookup_other _ _ _ _ _ _ hk, set_lookup_other _ _ _ _ _ _ hk] at h
      cases h
  exact ⟨hall, (removeOneExpiredEntry_absent 2000000000 storeStale).1 hall⟩

/-- C8: `remove(k)` returns true exactly when `k` is a key of the map before the call,
whatever the expiration of its record; after the call `k` is absent from the map, `get(k)`
is absent at every clock value, every other key has the record it had, and a second
`remove(k)` right after returns false. -/
theorem remove_spec (C : Clock) (s : KVStorage) (k : string) :
    ((s.remove k).1 = true ↔ k ∈ s.map_) ∧
    ((s.remove k).1 = true ↔ ∃ e, s.map_.lookup k = some e) ∧
    (s.remove k).2.map_.lookup k = none ∧
    k ∉ (s.remove k).2.map_ ∧
    (∀ now, (s.remove k).2.get C now k = none) ∧
    (∀ k', k' ≠ k → (s.remove k).2.map_.lookup k' = s.map_.lookup k') ∧
    ((s.remove k).2.remove k).1 = false := by
  have hnone : (s.remove k).2.map_.lookup k = none := by
    rw [remove_map, AList.lookup_erase]
  refine ⟨?_, ?_, hnone, AList.lookup_eq_none.1 hnone, ?_, ?_, ?_⟩
  · rw [remove_flag, AList.lookup_isSome]
  · rw [remove_flag, Option.isSome_iff_exists]
  · intro now
    exact get_of_lookup_none hnone
  · intro k' hk'
    rw [remove_map, AList.lookup_erase_ne hk']
  · rw [remove_flag, hnone]
    rfl

/-- C9, the failing input: `set("k", "1", 0)` at clock value 0, then `set("k", "2", 1)`
when the clock shows one second less than `time_point::max()`.  The record of `"k"` has
value `"2"` and `expires_at = t2 + ttl2` seconds, which is `time_point::max()`, the never
sentinel.  At clock value `time_point::max()` the `ttl` is not 0 and the clock is not below
`t2 + ttl2` seconds, yet `get("k")` returns `"2"` where the claim has absent, while
`removeOneExpiredEntry` at that clock value takes the record for expired and returns it. -/
theorem set_overwrites_at_sentinel :
    ((empty.set steady_clock 0 [107] [49] 0).set steady_clock 9223372035854775807 [107] [50]
      1).map_.lookup [107] =
      some { value := [50], expires_at := 9223372035854775807 + steady_clock.seconds 1 } ∧
    (9223372035854775807 : time_point) + steady_clock.seconds 1 = steady_clock.max ∧
    ¬ ((1 : Nat) = 0 ∨
      (9223372036854775807 : time_point) < 9223372035854775807 + steady_clock.seconds 1) ∧
    ((empty.set steady_clock 0 [107] [49] 0).set steady_clock 9223372035854775807 [107] [50]
      1).get steady_clock 9223372036854775807 [107] = some [50] ∧
    (((empty.set steady_clock 0 [107] [49] 0).set steady_clock 9223372035854775807 [107] [50]
      1).removeOneExpiredEntry 9223372036854775807).1 = some ([107], [50]) := by
  decide

/-- C10: in a reachable state, the entry `(k, v)` that `removeOneExpiredEntry` returns at
`now` is a record of the map with `expires_at ≤ now` that is least in the order
(`expires_at` ascending, then key ascending) among the records of the map, those with
`expires_at ≤ now` among them; so of two records with the same `expires_at` the one with
the lower key is returned first. -/
theorem evicts_least (C : Clock) (s : KVStorage) (hreach : Reachable C s)
    (now : time_point) (k v : string)
    (hret : (s.removeOneExpiredEntry now).1 = some (k, v)) :
    ∃ exp, s.map_.lookup k = some { value := v, expires_at := exp } ∧ exp ≤ now ∧
      (∀ k' e', s.map_.lookup k' = some e' →
        exp < e'.expires_at ∨ (exp = e'.expires_at ∧ k ≤ k')) ∧
      (∀ k' e', s.map_.lookup k' = some e' → e'.expires_at = exp → k ≤ k') := by
  obtain ⟨exp, h1, h2, h3⟩ := removeLoop_least now _ s.map_ s.expiry_heap_
    (indexCovers_of_reachable hreach) hret
  refine ⟨exp, h1, h2, h3, ?_⟩
  intro k' e' hl heq
  rcases h3 k' e' hl with hlt | ⟨_, hle⟩
  · exact absurd (heq ▸ hlt) (lt_irrefl _)
  · exact hle

/-- C10, an instance: in `storeAB` at three seconds the records of `"a"` (due at one
second) and of `"b"` (due at two) are both due; `("a", "1")` is returned. -/
theorem evicts_least_witness :
    Reachable steady_clock storeAB ∧
    (storeAB.removeOneExpiredEntry 3000000000).1 = some ([97], [49]) ∧
    ∃ exp, storeAB.map_.lookup [97] = some { value := [49], expires_at := exp } ∧
      exp ≤ 3000000000 ∧
      (∀ k' e', storeAB.map_.lookup k' = some e' →
        exp < e'.expires_at ∨ (exp = e'.expires_at ∧ [97] ≤ k')) ∧
      (∀ k' e', storeAB.map_.lookup k' = some e' → e'.expires_at = exp → [97] ≤ k') :=
  ⟨⟨_, _, rfl⟩, by decide,
    evicts_least steady_clock storeAB ⟨_, _, rfl⟩ 3000000000 [97] [49] (by decide)⟩

/-- C11, the failing input: `set("k", "v", 1)` on the empty store when the clock shows one
second less than `time_point::max()`; the clock value `t + ttl` seconds is
`time_point::max()`, the never sentinel.  At that clock value `get("k")` returns `"v"`
where the claim has absent, while `removeOneExpiredEntry` returns `("k", "v")` and the
call after it returns absent: `get` and eviction do not agree on this boundary. -/
theorem expiry_boundary_at_sentinel :
    (0 : Nat) < 1 ∧
    (9223372035854775807 : time_point) + steady_clock.seconds 1 = steady_clock.max ∧
    (empty.set steady_clock 9223372035854775807 [107] [118] 1).get steady_clock
      (9223372035854775807 + steady_clock.seconds 1) [107] = some [118] ∧
    ((empty.set steady_clock 9223372035854775807 [107] [118] 1).removeOneExpiredEntry
      (9223372035854775807 + steady_clock.seconds 1)).1 = some ([107], [118]) ∧
    (((empty.set steady_clock 9223372035854775807 [107] [118] 1).removeOneExpiredEntry
      (9223372035854775807 + steady_clock.seconds 1)).2.removeOneExpiredEntry
      (9223372035854775807 + steady_clock.seconds 1)).1 = none := by decide

/-- C12, as amended: when the index is non-empty and its least candidate has an
`expires_at` strictly after `now`, `removeOneExpiredEntry` returns absent and the index
after the call is the index before the call: the least candidate is read, not popped, and
is still in the index; the map is unchanged too. -/
theorem future_minimum_kept (now : time_point) (s : KVStorage) (top : ExpItem)
    (ht : Heap.top s.expiry_heap_ = some top) (hfut : top.expires_at > now) :
    (s.removeOneExpiredEntry now).1 = none ∧
    (s.removeOneExpiredEntry now).2.expiry_heap_ = s.expiry_heap_ ∧
    top ∈ (s.removeOneExpiredEntry now).2.expiry_heap_ ∧
    Heap.top (s.removeOneExpiredEntry now).2.expiry_heap_ = some top ∧
    (s.removeOneExpiredEntry now).2.map_ = s.map_ := by
  rw [removeOneExpiredEntry_future ht hfut]
  exact ⟨rfl, rfl, Heap.top_mem ht, ht, rfl⟩

/-- C12, counterexample: on the store of `set("k", "v", 1)` at clock value 0, one tick
before the second is over, the least candidate is in the future, the call returns absent,
and the index after the call is not the index before minus that candidate: it still
holds it. -/
theorem future_minimum_kept_counterexample :
    Heap.top storeK.expiry_heap_ = some { key := [107], expires_at := 1000000000 } ∧
    (1000000000 : time_point) > 999999999 ∧
    (storeK.removeOneExpiredEntry 999999999).1 = none ∧
    (storeK.removeOneExpiredEntry 999999999).2.expiry_heap_ ≠
      storeK.expiry_heap_.erase { key := [107], expires_at := 1000000000 } ∧
    (storeK.removeOneExpiredEntry 999999999).2.expiry_heap_ =
      [{ key := [107], expires_at := 1000000000 }] := by decide

/-- C12, an instance of the amended claim: the store `storeAB` half a second after its
construction. -/
theorem future_minimum_kept_witness :
    Heap.top storeAB.expiry_heap_ = some { key := [97], expires_at := 1000000000 } ∧
    (1000000000 : time_point) > 500000000 ∧
    ((storeAB.removeOneExpiredEntry 500000000).1 = none ∧
      (storeAB.removeOneExpiredEntry 500000000).2.expiry_heap_ = storeAB.expiry_heap_ ∧
      ({ key := [97], expires_at := 1000000000 } : ExpItem) ∈
        (storeAB.removeOneExpiredEntry 500000000).2.expiry_heap_ ∧
      Heap.top (storeAB.removeOneExpiredEntry 500000000).2.expiry_heap_ =
        some { key := [97], expires_at := 1000000000 } ∧
      (storeAB.removeOneExpiredEntry 500000000).2.map_ = storeAB.map_) :=
  ⟨by decide, by decide,
    future_minimum_kept 500000000 storeAB { key := [97], expires_at := 1000000000 }
      (by decide) (by decide)⟩

/-- C13: in every state reached from construction by any sequence of `set`, `remove`,
`get`, `getManySorted` and `removeOneExpiredEntry` calls at any clock values, for every
record of the map the expiry index holds a candidate with the record's key and the
record's `expires_at`. -/
theorem index_covers_map (C : Clock) (s : KVStorage) (hreach : Reachable C s) (k : string)
    (e : Entry) (hk : s.map_.lookup k = some e) :
    ∃ c ∈ s.expiry_heap_, c.key = k ∧ c.expires_at = e.expires_at := by
  obtain ⟨entries, ops, hs⟩ := hreach
  have hcov : IndexCovers s := by
    rw [hs]
    exact indexCovers_run C _ ops (indexCovers_construct C entries)
  exact ⟨{ key := k, expires_at := e.expires_at }, hcov k e hk, rfl, rfl⟩

/-- C13, an instance: the record of `"b"` in `storeAB`, written twice. -/
theorem index_covers_map_witness :
    Reachable steady_clock storeAB ∧
    storeAB.map_.lookup [98] = some { value := [51], expires_at := 2000000000 } ∧
    ∃ c ∈ storeAB.expiry_heap_, c.key = [98] ∧
      c.expires_at = ({ value := [51], expires_at := 2000000000 } : Entry).expires_at :=
  ⟨⟨_, _, rfl⟩, by decide,
    index_covers_map steady_clock storeAB ⟨_, _, rfl⟩ [98]
      { value := [51], expires_at := 2000000000 } (by decide)⟩

/-- C14: `set(k, v, ttl)` pushes exactly the candidate `(k, expires_at of the new record)`
on the expiry index and takes nothing out, whether or not `k` was in the map: every
candidate is in the index once more if it is that candidate and as often as before
otherwise, and the index size grows by 1; `remove(k)` leaves the index as it was, whether
or not `k` was in the map. -/
theorem set_remove_index (C : Clock) (now : time_point) (s : KVStorage) (k v : string)
    (ttl : Nat) :
    (s.set C now k v ttl).map_.lookup k =
      some { value := v, expires_at := expiresAt C now ttl } ∧
    (s.set C now k v ttl).expiry_heap_ =
      Heap.push s.expiry_heap_ { key := k, expires_at := expiresAt C now ttl } ∧
    (∀ c, (s.set C now k v ttl).expiry_heap_.count c =
      s.expiry_heap_.count c +
        if c = { key := k, expires_at := expiresAt C now ttl } then 1 else 0) ∧
    (s.set C now k v ttl).expiry_heap_.length = s.expiry_heap_.length + 1 ∧
    (s.remove k).2.expiry_heap_ = s.expiry_heap_ := by
  refine ⟨set_lookup_self C now s k v ttl, rfl, ?_, ?_, remove_heap s k⟩
  · intro c
    rw [set_heap, List.count_cons]
    by_cases hc : c = { key := k, expires_at := expiresAt C now ttl }
    · subst hc
      simp [expiresAt]
    · have hc' : ¬ ({ key := k, expires_at := if ttl = 0 then C.max else now + C.seconds ttl }
          : ExpItem) = c := fun h => hc h.symm
      simp [hc, hc']
  · rw [set_heap, List.length_cons]

/-- C15: `getManySorted` filters as `get` does: at every store and clock value `get(k)`
returns `v` if and only if `getManySorted(k, 1)` returns the one-element list `[(k, v)]`;
and `get(k)` returns a value if and only if `k` is in the result of some `getManySorted`
call at that clock value. -/
theorem get_iff_getManySorted (C : Clock) (now : time_point) (s : KVStorage)
    (k v : string) :
    (s.get C now k = some v ↔ s.getManySorted C now k 1 = [(k, v)]) ∧
    ((∃ w, s.get C now k = some w) ↔
      ∃ start count w, (k, w) ∈ s.getManySorted C now start count) := by
  constructor
  · obtain ⟨L, hs, hmem, htake⟩ := getManySorted_take C now s k
    rw [htake 1, get_eq_some_iff]
    constructor
    · rintro ⟨e, he, hv, hlive⟩
      refine take_one_of_sorted hs ?_ ((hmem k v).2 ⟨e, he, hv, hlive, le_refl _⟩)
      intro p hp
      obtain ⟨_, _, _, _, hge⟩ := (hmem p.1 p.2).1 hp
      exact hge
    · intro h
      have hin : (k, v) ∈ L := by
        refine List.mem_of_mem_take (?_ : (k, v) ∈ L.take 1)
        rw [h]
        exact List.mem_singleton_self _
      obtain ⟨e, he, hv, hlive, _⟩ := (hmem k v).1 hin
      exact ⟨e, he, hv, hlive⟩
  · constructor
    · rintro ⟨w, hw⟩
      obtain ⟨L, hs, hmem, htake⟩ := getManySorted_take C now s k
      obtain ⟨e, he, hv, hlive⟩ := get_eq_some_iff.1 hw
      refine ⟨k, 1, w, ?_⟩
      rw [htake 1, take_one_of_sorted hs ?_ ((hmem k w).2 ⟨e, he, hv, hlive, le_refl _⟩)]
      · exact List.mem_singleton_self _
      · intro p hp
        obtain ⟨_, _, _, _, hge⟩ := (hmem p.1 p.2).1 hp
        exact hge
    · rintro ⟨start, count, w, hw⟩
      obtain ⟨L, _, hmem, htake⟩ := getManySorted_take C now s start
      rw [htake count] at hw
      obtain ⟨e, he, hv, hlive, _⟩ := (hmem k w).1 (List.mem_of_mem_take hw)
      exact ⟨w, get_eq_some_iff.2 ⟨e, he, hv, hlive⟩⟩

/-- C16: the store the constructor builds from a sequence of triples at clock value `now`
is the store reached from the empty store by `set` on each triple, in sequence order, at
time `now` (map and expiry index); so the record of a key is that of the last triple with
the key, and the index holds one candidate per triple. -/
theorem construct_refines (C : Clock) (now : time_point)
    (entries : List (string × string × Nat)) :
    constructAt C now entries = setInOrder C now empty entries ∧
    (∀ pre post k v ttl, entries = pre ++ (k, v, ttl) :: post → (∀ e ∈ post, e.1 ≠ k) →
      (constructAt C now entries).map_.lookup k =
        some { value := v, expires_at := expiresAt C now ttl }) ∧
    (constructAt C now entries).expiry_heap_ =
      (entries.map (fun e => ({ key := e.1, expires_at := expiresAt C now e.2.2 }
        : ExpItem))).reverse ∧
    (constructAt C now entries).expiry_heap_.length = entries.length := by
  have heq : constructAt C now entries = setInOrder C now empty entries :=
    foldl_set_eq_setInOrder C now entries empty
  have hheap : (constructAt C now entries).expiry_heap_ =
      (entries.map (fun e => ({ key := e.1, expires_at := expiresAt C now e.2.2 }
        : ExpItem))).reverse := by
    rw [heq, setInOrder_heap]
    exact List.append_nil _
  refine ⟨heq, ?_, hheap, ?_⟩
  · intro pre post k v ttl hsplit hpost
    rw [heq, hsplit, setInOrder_append]
    show (setInOrder C now ((setInOrder C now empty pre).set C now k v ttl) post).map_.lookup k
      = _
    rw [setInOrder_lookup_other C now _ post k hpost]
    exact set_lookup_self C now _ k v ttl
  · rw [hheap, List.length_reverse, List.length_map]

/-- C16, an instance: in `batchAA` the key `"a"` occurs first with `ttl` 0 and last with
`ttl` 2; the record of `"a"` is that of the last triple, and the index has three
candidates. -/
theorem construct_refines_witness :
    batchAA = [([97], [49], 0), ([98], [50], 5)] ++ ([97], [51], 2) :: [] ∧
    (constructAt steady_clock 0 batchAA).map_.lookup [97] =
      some { value := [51], expires_at := expiresAt steady_clock 0 2 } ∧
    (constructAt steady_clock 0 batchAA).expiry_heap_.length = batchAA.length :=
  ⟨rfl, (construct_refines steady_clock 0 batchAA).2.1 [([97], [49], 0), ([98], [50], 5)] []
      [97] [51] 2 rfl
      (fun e he => absurd he (List.not_mem_nil e)),
    (construct_refines steady_clock 0 batchAA).2.2.2⟩

/-- C17: `set(k, v, ttl)` leaves the record of every other key `k'` as it was (present
or not, value and `expires_at`), so `get(k')` at one clock value returns the same before
and after the call. -/
theorem set_local (C : Clock) (now : time_point) (s : KVStorage) (k k' v : string)
    (ttl : Nat) (hne : k ≠ k') :
    (s.set C now k v ttl).map_.lookup k' = s.map_.lookup k' ∧
    (k' ∈ (s.set C now k v ttl).map_ ↔ k' ∈ s.map_) ∧
    ∀ t, (s.set C now k v ttl).get C t k' = s.get C t k' := by
  have hl : (s.set C now k v ttl).map_.lookup k' = s.map_.lookup k' :=
    set_lookup_other C now s k v ttl (Ne.symm hne)
  refine ⟨hl, ?_, ?_⟩
  · rw [← AList.lookup_isSome, ← AList.lookup_isSome, hl]
  · intro t
    unfold get
    rw [hl]

/-- C17, an instance: `set("a", "9", 3)` on `storeAB` and the key `"b"`. -/
theorem set_local_witness :
    ([97] : string) ≠ [98] ∧
    ((storeAB.set steady_clock 7 [97] [57] 3).map_.lookup [98] = storeAB.map_.lookup [98] ∧
      ([98] ∈ (storeAB.set steady_clock 7 [97] [57] 3).map_ ↔ [98] ∈ storeAB.map_) ∧
      ∀ t, (storeAB.set steady_clock 7 [97] [57] 3).get steady_clock t [98] =
        storeAB.get steady_clock t [98]) :=
  ⟨by decide, set_local steady_clock 7 storeAB [97] [98] [57] 3 (by decide)⟩

/-- C18: `removeOneExpiredEntry` terminates on every store and clock value: run with more
evaluations of its loop condition allowed than the index has candidates, the loop returns,
with the result of the call, after at most `index size` executions of its body; an
iteration that continues pops exactly one candidate; the index after the call is the
index before with candidates taken out (a sub-multiset of it), and has fewer candidates
whenever the call returns an entry. -/
theorem removeOneExpiredEntry_terminates (now : time_point) (s : KVStorage) :
    (∃ iters, iters ≤ s.expiry_heap_.length ∧
      ∀ budget, s.expiry_heap_.length < budget →
        removeLoopCounted now budget s.map_ s.expiry_heap_ =
          some (((s.removeOneExpiredEntry now).1, (s.removeOneExpiredEntry now).2.map_,
            (s.removeOneExpiredEntry now).2.expiry_heap_), iters)) ∧
    (∀ (h : Heap) (top : ExpItem), Heap.top h = some top →
      (Heap.pop h).length + 1 = h.length) ∧
    (s.removeOneExpiredEntry now).2.expiry_heap_.Sublist s.expiry_heap_ ∧
    ((s.removeOneExpiredEntry now).2.expiry_heap_ : Multiset ExpItem) ≤
      (s.expiry_heap_ : Multiset ExpItem) ∧
    ((s.removeOneExpiredEntry now).1 ≠ none →
      (s.removeOneExpiredEntry now).2.expiry_heap_.length + 1 ≤ s.expiry_heap_.length) := by
  have hsub := (removeOneExpiredEntry_cases now s).1
  refine ⟨?_, fun h top ht => Heap.pop_length ht, hsub, ?_, ?_⟩
  · obtain ⟨n, hn, heq⟩ := removeLoopCounted_eq now (s.expiry_heap_.length + 1)
      s.expiry_heap_.length s.map_ s.expiry_heap_ (Nat.lt_succ_self _) (le_refl _)
    refine ⟨n, hn, ?_⟩
    intro budget hb
    rw [removeLoopCounted_budget now budget (s.expiry_heap_.length + 1) s.map_ s.expiry_heap_
      hb (Nat.lt_succ_self _), heq]
    rfl
  · exact Multiset.coe_le.2 hsub.subperm
  · intro hret
    exact removeOneExpiredEntry_length hret

end KVStorage

end KV
